import Mathlib

/-
Verification of the command dispatch layer (src/utils/request.ts) of the
Antigravity-Manager repository.

The dispatcher maps a command name to an HTTP route (COMMAND_MAPPING),
substitutes ":key" path placeholders from the argument bag, partitions the
remaining arguments into query parameters (GET/DELETE) or a JSON body
(POST/PATCH), attaches session-credential headers, and normalizes responses.

Modelling conventions:
- JavaScript values in the argument bag and JSON payloads are modelled by
  the inductive type JsVal.  JSON numbers are modelled exactly for integer
  literals (vNum); fractional/exponent literals are kept as their raw
  lexeme (vNumF), which is faithful for every operation the dispatcher
  performs on them except re-serialization (which the dispatcher never
  does with parsed numbers).
- URLs are manipulated as List Char.  JavaScript's String.prototype.replace
  with a string pattern replaces the first occurrence only; its special "$"
  replacement patterns are irrelevant here because encodeURIComponent output
  never contains "$" (it is percent-encoded).  replaceFirst models this.
- The browser-mode part of `request` up to the fetch call is the pure
  function buildRequest; response normalization is handleSuccess /
  errorRejection; the 401 debounce is auth401Step.
-/

/-- JavaScript-like values: members of the argument bag and JSON payloads. -/
inductive JsVal where
| vStr : String → JsVal
| vNum : Int → JsVal
| vNumF : String → JsVal
| vBool : Bool → JsVal
| vNull : JsVal
| vUndefined : JsVal
| vObj : List (String × JsVal) → JsVal
| vArr : List JsVal → JsVal

open JsVal

mutual

/-- JavaScript String(v) conversion, as used by `String(args[key])`. -/
def jsToString : JsVal → String
| vStr s => s
| vNum n => toString n
| vNumF raw => raw
| vBool b => cond b "true" "false"
| vNull => "null"
| vUndefined => "undefined"
| vObj _ => "[object Object]"
| vArr l => joinElems l
termination_by structural v => v

/-- Array.prototype.toString: elements joined by commas, with null and
undefined elements contributing the empty string. -/
def joinElems : List JsVal → String
| [] => ""
| [x] =>
  (match x with
   | vNull => ""
   | vUndefined => ""
   | x2 => jsToString x2)
| x :: y :: xs =>
  (match x with
   | vNull => ""
   | vUndefined => ""
   | x2 => jsToString x2) ++ "," ++ joinElems (y :: xs)
termination_by structural l => l

end

/-- Hexadecimal digit characters, uppercase (as produced by encodeURIComponent). -/
def hexDigitUC (n : Nat) : Char :=
  if n < 10 then Char.ofNat (48 + n) else Char.ofNat (65 + (n - 10))

/-- Hexadecimal digit characters, lowercase (as produced by JSON.stringify escapes). -/
def hexDigitLC (n : Nat) : Char :=
  if n < 10 then Char.ofNat (48 + n) else Char.ofNat (97 + (n - 10))

/-- UTF-8 encoding of a code point, as a list of byte values. -/
def utf8Bytes (n : Nat) : List Nat :=
  if n < 128 then [n]
  else if n < 2048 then [192 + n / 64, 128 + n % 64]
  else if n < 65536 then [224 + n / 4096, 128 + (n / 64) % 64, 128 + n % 64]
  else [240 + n / 262144, 128 + (n / 4096) % 64, 128 + (n / 64) % 64, 128 + n % 64]

/-- Percent-encoding of one byte: "%XY" with uppercase hex digits. -/
def percentByte (b : Nat) : List Char :=
  ['%', hexDigitUC (b / 16 % 16), hexDigitUC (b % 16)]

/-- Characters left unescaped by JavaScript's encodeURIComponent. -/
def uriUnreserved (c : Char) : Bool :=
  c.isAlphanum || c == '-' || c == '_' || c == '.' || c == '!' || c == '~' ||
    c == '*' || c == Char.ofNat 39 || c == '(' || c == ')'

/-- encodeURIComponent on a single character. -/
def encodeCharURI (c : Char) : List Char :=
  if uriUnreserved c then [c] else (utf8Bytes c.toNat).foldr (fun b acc => percentByte b ++ acc) []

/-- encodeURIComponent on a character list. -/
def encodeListURI : List Char → List Char
| [] => []
| c :: cs => encodeCharURI c ++ encodeListURI cs

/-- JavaScript's encodeURIComponent. -/
def encodeURIComponent (s : String) : String := ⟨encodeListURI s.toList⟩

/-- Characters left unescaped by URLSearchParams serialization
(application/x-www-form-urlencoded). -/
def formSafe (c : Char) : Bool :=
  c.isAlphanum || c == '*' || c == '-' || c == '.' || c == '_'

/-- URLSearchParams component serialization for one character:
space becomes '+', safe characters stay, the rest is percent-encoded. -/
def formEncodeChar (c : Char) : List Char :=
  if c == ' ' then ['+']
  else if formSafe c then [c]
  else (utf8Bytes c.toNat).foldr (fun b acc => percentByte b ++ acc) []

/-- URLSearchParams component serialization on a character list. -/
def formEncodeList : List Char → List Char
| [] => []
| c :: cs => formEncodeChar c ++ formEncodeList cs

/-- URLSearchParams component serialization. -/
def formEncode (s : String) : String := ⟨formEncodeList s.toList⟩

/-- Join a list of strings with commas (JSON.stringify member separator). -/
def joinComma : List String → String
| [] => ""
| [x] => x
| x :: y :: xs => x ++ "," ++ joinComma (y :: xs)

/-- Join a list of strings with ampersands (URLSearchParams.toString separator). -/
def joinAmp : List String → String
| [] => ""
| [x] => x
| x :: y :: xs => x ++ "&" ++ joinAmp (y :: xs)

/-- JSON string escaping of one character, as JSON.stringify does. -/
def escapeJsonChar (c : Char) : String :=
  if c == '"' then "\\\""
  else if c == '\\' then "\\\\"
  else if c == '\x08' then "\\b"
  else if c == '\t' then "\\t"
  else if c == '\n' then "\\n"
  else if c == '\x0c' then "\\f"
  else if c == '\r' then "\\r"
  else if c.toNat < 32 then
    "\\u00" ++ ⟨[hexDigitLC (c.toNat / 16), hexDigitLC (c.toNat % 16)]⟩
  else String.singleton c

/-- JSON string quoting, as JSON.stringify does. -/
def quoteJson (s : String) : String :=
  "\"" ++ (s.toList.foldr (fun c acc => escapeJsonChar c ++ acc) "") ++ "\""

mutual

/-- JSON.stringify.  Returns none exactly when JavaScript returns undefined
(top-level undefined); object fields with undefined values are dropped and
undefined array elements serialize as null, as in JavaScript. -/
def stringifyVal : JsVal → Option String
| vUndefined => none
| vNull => some "null"
| vBool b => some (cond b "true" "false")
| vNum n => some (toString n)
| vNumF raw => some raw
| vStr s => some (quoteJson s)
| vObj fs => some ("\x7b" ++ joinComma (stringifyFields fs) ++ "\x7d")
| vArr l => some ("[" ++ joinComma (stringifyElems l) ++ "]")
termination_by structural v => v

/-- Serialized "key":value members of an object, skipping undefined values. -/
def stringifyFields : List (String × JsVal) → List String
| [] => []
| (k, v) :: rest =>
  match stringifyVal v with
  | none => stringifyFields rest
  | some s => (quoteJson k ++ ":" ++ s) :: stringifyFields rest
termination_by structural l => l

/-- Serialized elements of an array; undefined elements become null. -/
def stringifyElems : List JsVal → List String
| [] => []
| v :: rest =>
  (match stringifyVal v with
   | none => "null"
   | some s => s) :: stringifyElems rest
termination_by structural l => l

end

/-- JSON whitespace characters. -/
def jsonWs (c : Char) : Bool := c == ' ' || c == '\t' || c == '\n' || c == '\r'

/-- Skip leading JSON whitespace. -/
def skipWs (l : List Char) : List Char := l.dropWhile jsonWs

/-- Hexadecimal digit test. -/
def isHexDigit (c : Char) : Bool :=
  c.isDigit || (97 ≤ c.toNat && c.toNat ≤ 102) || (65 ≤ c.toNat && c.toNat ≤ 70)

/-- Value of a hexadecimal digit character. -/
def hexVal (c : Char) : Nat :=
  if c.isDigit then c.toNat - 48
  else if 97 ≤ c.toNat then c.toNat - 87
  else c.toNat - 55

/-- Parse exactly four hexadecimal digits (the \uXXXX escape payload). -/
def parseHex4 : List Char → Option (Nat × List Char)
| a :: b :: c :: d :: rest =>
  if isHexDigit a && isHexDigit b && isHexDigit c && isHexDigit d then
    some (((hexVal a * 16 + hexVal b) * 16 + hexVal c) * 16 + hexVal d, rest)
  else none
| _ => none

/-- Parse the body of a JSON string after the opening quote; returns the
string contents and the input after the closing quote. -/
def parseStringBody : Nat → List Char → Option (String × List Char)
| 0, _ => none
| _, [] => none
| fuel + 1, c :: rest =>
  if c == '"' then some ("", rest)
  else if c == '\\' then
    match rest with
    | [] => none
    | e :: rest2 =>
      if e == '"' then (parseStringBody fuel rest2).map (fun p => (String.singleton '"' ++ p.1, p.2))
      else if e == '\\' then (parseStringBody fuel rest2).map (fun p => (String.singleton '\\' ++ p.1, p.2))
      else if e == '/' then (parseStringBody fuel rest2).map (fun p => (String.singleton '/' ++ p.1, p.2))
      else if e == 'b' then (parseStringBody fuel rest2).map (fun p => (String.singleton '\x08' ++ p.1, p.2))
      else if e == 'f' then (parseStringBody fuel rest2).map (fun p => (String.singleton '\x0c' ++ p.1, p.2))
      else if e == 'n' then (parseStringBody fuel rest2).map (fun p => (String.singleton '\n' ++ p.1, p.2))
      else if e == 'r' then (parseStringBody fuel rest2).map (fun p => (String.singleton '\r' ++ p.1, p.2))
      else if e == 't' then (parseStringBody fuel rest2).map (fun p => (String.singleton '\t' ++ p.1, p.2))
      else if e == 'u' then
        match parseHex4 rest2 with
        | some (n, rest3) => (parseStringBody fuel rest3).map (fun p => (String.singleton (Char.ofNat n) ++ p.1, p.2))
        | none => none
      else none
  else if c.toNat < 32 then none
  else (parseStringBody fuel rest).map (fun p => (String.singleton c ++ p.1, p.2))

/-- Digits of a decimal literal folded into a Nat. -/
def digitsToNat (l : List Char) : Nat :=
  List.foldl (fun acc d => acc * 10 + (d.toNat - 48)) 0 l

/-- Parse a JSON number.  Integer literals become vNum; literals with a
fraction or exponent part keep their raw lexeme as vNumF. -/
def parseNumber (l : List Char) : Option (JsVal × List Char) :=
  let (neg, l1) := match l with
                   | '-' :: rest => (true, rest)
                   | _ => (false, l)
  let digs := l1.takeWhile Char.isDigit
  let rest1 := l1.dropWhile Char.isDigit
  if digs.isEmpty then none
  else if digs.length > 1 && digs.headD '0' == '0' then none
  else
    let (fracChars, rest2) :=
      match rest1 with
      | '.' :: r =>
        let f := r.takeWhile Char.isDigit
        if f.isEmpty then ([], rest1) else ('.' :: f, r.dropWhile Char.isDigit)
      | _ => ([], rest1)
    let fracOk := match rest1 with
                  | '.' :: r => !(r.takeWhile Char.isDigit).isEmpty
                  | _ => true
    if !fracOk then none
    else
      let (expChars, rest3) :=
        match rest2 with
        | e :: r =>
          if e == 'e' || e == 'E' then
            let (sgn, r2) := match r with
                             | '+' :: rr => (['+'], rr)
                             | '-' :: rr => (['-'], rr)
                             | _ => ([], r)
            let ds := r2.takeWhile Char.isDigit
            if ds.isEmpty then ([], rest2) else (e :: (sgn ++ ds), r2.dropWhile Char.isDigit)
          else ([], rest2)
        | [] => ([], rest2)
      let expOk := match rest2 with
                   | e :: r =>
                     if e == 'e' || e == 'E' then
                       let r2 := match r with
                                 | '+' :: rr => rr
                                 | '-' :: rr => rr
                                 | _ => r
                       !(r2.takeWhile Char.isDigit).isEmpty
                     else true
                   | [] => true
      if !expOk then none
      else if fracChars.isEmpty && expChars.isEmpty then
        let n : Int := Int.ofNat (digitsToNat digs)
        some (vNum (if neg then -n else n), rest1)
      else
        let raw : List Char := (if neg then ['-'] else []) ++ digs ++ fracChars ++ expChars
        some (vNumF ⟨raw⟩, rest3)

/-- Left brace character (written by code point to keep braces out of literals). -/
def lbrace : Char := Char.ofNat 123

/-- Right brace character. -/
def rbrace : Char := Char.ofNat 125

mutual

/-- Parse one JSON value; returns the value and the remaining input. -/
def parseValue : Nat → List Char → Option (JsVal × List Char)
| 0, _ => none
| fuel + 1, l =>
  match skipWs l with
  | [] => none
  | c :: rest =>
    if c == '"' then
      (parseStringBody (rest.length + 1) rest).map (fun p => (vStr p.1, p.2))
    else if c == lbrace then
      match skipWs rest with
      | d :: rest2 =>
        if d == rbrace then some (vObj [], rest2)
        else parseMembers fuel (skipWs rest) []
      | [] => none
    else if c == '[' then
      match skipWs rest with
      | d :: rest2 =>
        if d == ']' then some (vArr [], rest2)
        else parseItems fuel (skipWs rest) []
      | [] => none
    else if c == 't' then
      match rest with
      | 'r' :: 'u' :: 'e' :: rest2 => some (vBool true, rest2)
      | _ => none
    else if c == 'f' then
      match rest with
      | 'a' :: 'l' :: 's' :: 'e' :: rest2 => some (vBool false, rest2)
      | _ => none
    else if c == 'n' then
      match rest with
      | 'u' :: 'l' :: 'l' :: rest2 => some (vNull, rest2)
      | _ => none
    else parseNumber (c :: rest)

/-- Parse the members of a JSON object after the opening brace (accumulator
holds the members already parsed, in order). -/
def parseMembers : Nat → List Char → List (String × JsVal) → Option (JsVal × List Char)
| 0, _, _ => none
| fuel + 1, l, acc =>
  match skipWs l with
  | c :: rest =>
    if c == '"' then
      match parseStringBody (rest.length + 1) rest with
      | some (key, rest2) =>
        match skipWs rest2 with
        | ':' :: rest3 =>
          match parseValue fuel rest3 with
          | some (v, rest4) =>
            match skipWs rest4 with
            | ',' :: rest5 => parseMembers fuel rest5 (acc ++ [(key, v)])
            | d :: rest5 =>
              if d == rbrace then some (vObj (acc ++ [(key, v)]), rest5) else none
            | [] => none
          | none => none
        | _ => none
      | none => none
    else none
  | [] => none

/-- Parse the items of a JSON array after the opening bracket. -/
def parseItems : Nat → List Char → List JsVal → Option (JsVal × List Char)
| 0, _, _ => none
| fuel + 1, l, acc =>
  match parseValue fuel l with
  | some (v, rest) =>
    match skipWs rest with
    | ',' :: rest2 => parseItems fuel rest2 (acc ++ [v])
    | ']' :: rest2 => some (vArr (acc ++ [v]), rest2)
    | _ => none
  | none => none

end

/-- JSON.parse: parse a complete JSON document; none models a thrown
SyntaxError. -/
def parseJson (s : String) : Option JsVal :=
  match parseValue (s.length + 1) s.toList with
  | some (v, rest) => if (skipWs rest).isEmpty then some v else none
  | none => none

/-- JavaScript property access v.error and the like: objects look up the
field (undefined when missing); every other non-null, non-undefined value
yields undefined for the field names used here. -/
def getField : List (String × JsVal) → String → Option JsVal
| [], _ => none
| (k, v) :: rest, key => if k == key then some v else getField rest key

/-- Property read on an arbitrary value (total; null/undefined receivers are
handled by the caller, since accessing them throws in JavaScript). -/
def propGet (v : JsVal) (key : String) : JsVal :=
  match v with
  | vObj fs => (getField fs key).getD vUndefined
  | _ => vUndefined

/-- JavaScript truthiness of a value. -/
def truthy : JsVal → Bool
| vStr s => !(s == "")
| vNum n => !(n == 0)
| vNumF raw =>
  ((raw.toList.takeWhile (fun c => !(c == 'e' || c == 'E'))).any
    (fun c => c.isDigit && !(c == '0')))
| vBool b => b
| vNull => false
| vUndefined => false
| vObj _ => true
| vArr _ => true

/-- HTTP verbs used by the route table. -/
inductive HttpMethod where
| GET : HttpMethod
| POST : HttpMethod
| DELETE : HttpMethod
| PATCH : HttpMethod
deriving DecidableEq

/-- One route table entry: URL template and HTTP verb. -/
structure RouteEntry where
  url : String
  method : HttpMethod
deriving DecidableEq

/-- The route table of src/utils/request.ts (COMMAND_MAPPING), in source
order. -/
def COMMAND_MAPPING : List (String × RouteEntry) := [
  ("list_accounts", ⟨"/api/accounts", .GET⟩),
  ("get_current_account", ⟨"/api/accounts/current", .GET⟩),
  ("switch_account", ⟨"/api/accounts/switch", .POST⟩),
  ("add_account", ⟨"/api/accounts", .POST⟩),
  ("delete_account", ⟨"/api/accounts/:accountId", .DELETE⟩),
  ("delete_accounts", ⟨"/api/accounts/bulk-delete", .POST⟩),
  ("fetch_account_quota", ⟨"/api/accounts/:accountId/quota", .GET⟩),
  ("refresh_account_quota", ⟨"/api/accounts/:accountId/quota", .GET⟩),
  ("refresh_all_quotas", ⟨"/api/accounts/refresh", .POST⟩),
  ("reorder_accounts", ⟨"/api/accounts/reorder", .POST⟩),
  ("warm_up_accounts", ⟨"/api/accounts/warmup", .POST⟩),
  ("warm_up_all_accounts", ⟨"/api/accounts/warmup", .POST⟩),
  ("warm_up_account", ⟨"/api/accounts/:accountId/warmup", .POST⟩),
  ("update_account_label", ⟨"/api/accounts/:accountId/label", .POST⟩),
  ("export_accounts", ⟨"/api/accounts/export", .POST⟩),
  ("bind_device_profile", ⟨"/api/accounts/:accountId/bind-device", .POST⟩),
  ("get_device_profiles", ⟨"/api/accounts/:accountId/device-profiles", .GET⟩),
  ("list_device_versions", ⟨"/api/accounts/:accountId/device-versions", .GET⟩),
  ("preview_generate_profile", ⟨"/api/accounts/device-preview", .POST⟩),
  ("bind_device_profile_with_profile", ⟨"/api/accounts/:accountId/bind-device-profile", .POST⟩),
  ("restore_original_device", ⟨"/api/accounts/restore-original", .POST⟩),
  ("restore_device_version", ⟨"/api/accounts/:accountId/device-versions/:versionId/restore", .POST⟩),
  ("delete_device_version", ⟨"/api/accounts/:accountId/device-versions/:versionId", .DELETE⟩),
  ("open_device_folder", ⟨"/api/system/open-folder", .POST⟩),
  ("load_config", ⟨"/api/config", .GET⟩),
  ("save_config", ⟨"/api/config", .POST⟩),
  ("enable_debug_console", ⟨"/api/debug/enable", .POST⟩),
  ("disable_debug_console", ⟨"/api/debug/disable", .POST⟩),
  ("is_debug_console_enabled", ⟨"/api/debug/enabled", .GET⟩),
  ("get_debug_console_logs", ⟨"/api/debug/logs", .GET⟩),
  ("clear_debug_console_logs", ⟨"/api/debug/logs/clear", .POST⟩),
  ("get_data_dir_path", ⟨"/api/system/data-dir", .GET⟩),
  ("get_update_settings", ⟨"/api/system/updates/settings", .GET⟩),
  ("save_update_settings", ⟨"/api/system/updates/save", .POST⟩),
  ("is_auto_launch_enabled", ⟨"/api/system/autostart/status", .GET⟩),
  ("toggle_auto_launch", ⟨"/api/system/autostart/toggle", .POST⟩),
  ("get_http_api_settings", ⟨"/api/system/http-api/settings", .GET⟩),
  ("save_http_api_settings", ⟨"/api/system/http-api/settings", .POST⟩),
  ("get_antigravity_path", ⟨"/api/system/antigravity/path", .GET⟩),
  ("get_antigravity_args", ⟨"/api/system/antigravity/args", .GET⟩),
  ("should_check_updates", ⟨"/api/system/updates/check-status", .GET⟩),
  ("check_for_updates", ⟨"/api/system/updates/check", .POST⟩),
  ("update_last_check_time", ⟨"/api/system/updates/touch", .POST⟩),
  ("prepare_oauth_url", ⟨"/api/auth/url", .GET⟩),
  ("start_oauth_login", ⟨"/api/accounts/oauth/start", .POST⟩),
  ("complete_oauth_login", ⟨"/api/accounts/oauth/complete", .POST⟩),
  ("cancel_oauth_login", ⟨"/api/accounts/oauth/cancel", .POST⟩),
  ("submit_oauth_code", ⟨"/api/accounts/oauth/submit-code", .POST⟩),
  ("import_v1_accounts", ⟨"/api/accounts/import/v1", .POST⟩),
  ("import_from_db", ⟨"/api/accounts/import/db", .POST⟩),
  ("import_custom_db", ⟨"/api/accounts/import/db-custom", .POST⟩),
  ("sync_account_from_db", ⟨"/api/accounts/sync/db", .POST⟩),
  ("open_data_folder", ⟨"/api/system/open-folder", .POST⟩),
  ("clear_antigravity_cache", ⟨"/api/system/cache/clear", .POST⟩),
  ("get_antigravity_cache_paths", ⟨"/api/system/cache/paths", .GET⟩),
  ("clear_log_cache", ⟨"/api/system/logs/clear-cache", .POST⟩)]

/-- Route table lookup (JavaScript object property access; keys are unique). -/
def findRoute : List (String × RouteEntry) → String → Option RouteEntry
| [], _ => none
| (name, e) :: rest, cmd => if name == cmd then some e else findRoute rest cmd

/-- Is pat a prefix of l (character-exact)? -/
def isPre : List Char → List Char → Bool
| [], _ => true
| _ :: _, [] => false
| p :: ps, c :: cs => p == c && isPre ps cs

/-- Does l contain pat as a contiguous substring?  Models
String.prototype.includes. -/
def hasSub : List Char → List Char → Bool
| [], pat => isPre pat []
| c :: cs, pat => isPre pat (c :: cs) || hasSub cs pat

/-- Replace the first occurrence of pat in l by repl; l itself when there is
no occurrence.  Models String.prototype.replace with a string pattern (the
replacement strings used by the dispatcher contain no "$" patterns, because
encodeURIComponent escapes "$"). -/
def replaceFirst : List Char → List Char → List Char → List Char
| [], pat, repl => if isPre pat [] then repl else []
| c :: cs, pat, repl =>
  if isPre pat (c :: cs) then repl ++ (c :: cs).drop pat.length
  else c :: replaceFirst cs pat repl

/-- One pass over the keys of the argument bag (Object.keys(args).forEach):
substitute ":key" placeholders into the URL and record the keys consumed by
path substitution together with their String() value (the code deletes these
keys from the body-use copy).  Returns the substituted URL and the consumed
(key, String(value)) pairs in consumption order. -/
def substPathSteps : List (String × JsVal) → List Char → List Char × List (String × String)
| [], u => (u, [])
| (k, v) :: rest, u =>
  let pat := ':' :: k.toList
  if hasSub u pat then
    let r := substPathSteps rest (replaceFirst u pat (encodeListURI (jsToString v).toList))
    (r.1, (k, jsToString v) :: r.2)
  else substPathSteps rest u

/-- The body-use copy of the argument bag after path substitution: the
shallow copy of args minus the keys consumed as path parameters. -/
def bodyCopy (args : List (String × JsVal)) (consumed : List (String × String)) :
    List (String × JsVal) :=
  args.filter (fun p => !(consumed.any (fun c => c.1 == p.1)))

/-- Is the value undefined or null (the values the query loop skips with
`value !== undefined && value !== null`)? -/
def isNullish : JsVal → Bool
| vUndefined => true
| vNull => true
| _ => false

/-- Query parameters appended for GET/DELETE: every pair of the original
bag whose URL-encoded String() value does not already occur in the
substituted URL and whose value is neither undefined nor null, in bag
order, as (key, String(value)). -/
def queryPairs : List (String × JsVal) → List Char → List (String × String)
| [], _ => []
| (k, v) :: rest, u =>
  if hasSub u (encodeListURI (jsToString v).toList) then queryPairs rest u
  else if isNullish v then queryPairs rest u
  else (k, jsToString v) :: queryPairs rest u

/-- URLSearchParams.toString over a pair list. -/
def queryString (ps : List (String × String)) : String :=
  joinAmp (ps.map (fun p => formEncode p.1 ++ "=" ++ formEncode p.2))

/-- Request headers: Content-Type always; when a session credential is
present, both the bearer Authorization header and the x-api-key header. -/
def requestHeaders : Option String → List (String × String)
| some key => [("Content-Type", "application/json"),
               ("Authorization", "Bearer " ++ key),
               ("x-api-key", key)]
| none => [("Content-Type", "application/json")]

/-- The JSON body value chosen for POST/PATCH from the body-use copy: the
value of a defined "request" wrapper key, else the whole copy. -/
def chosenBody (bc : List (String × JsVal)) : JsVal :=
  match getField bc "request" with
  | some vUndefined => vObj bc
  | some v => v
  | none => vObj bc

/-- The HTTP request a browser-mode dispatch issues. -/
structure HttpRequest where
  method : HttpMethod
  url : String
  body : Option String
  headers : List (String × String)
deriving DecidableEq

/-- Browser-mode dispatch up to the fetch call (src/utils/request.ts lines
92 to 147): route lookup, path substitution on a body-use copy, session
headers, and query/body partitioning.  The argument apiKey is the value
read fresh from sessionStorage("abv_admin_api_key") on this call.  An error
result models the thrown configuration error; no request is built then. -/
def buildRequest (cmd : String) (args : Option (List (String × JsVal)))
    (apiKey : Option String) : Except String HttpRequest :=
  match findRoute COMMAND_MAPPING cmd with
  | none => .error ("Command [" ++ cmd ++ "] not supported in Web mode.")
  | some m =>
    let subst := match args with
                 | some a => substPathSteps a m.url.toList
                 | none => (m.url.toList, [])
    let u : String := ⟨subst.1⟩
    let headers := requestHeaders apiKey
    match m.method, args with
    | .GET, some a =>
      let qs := queryString (queryPairs a subst.1)
      .ok ⟨m.method, u ++ (if qs == "" then "" else "?" ++ qs), none, headers⟩
    | .DELETE, some a =>
      let qs := queryString (queryPairs a subst.1)
      .ok ⟨m.method, u ++ (if qs == "" then "" else "?" ++ qs), none, headers⟩
    | .POST, some a =>
      .ok ⟨m.method, u, stringifyVal (chosenBody (bodyCopy a subst.2)), headers⟩
    | .PATCH, some a =>
      .ok ⟨m.method, u, stringifyVal (chosenBody (bodyCopy a subst.2)), headers⟩
    | _, _ => .ok ⟨m.method, u, none, headers⟩

/-- response.ok: HTTP status in the 2xx range as fetch defines it. -/
def respOk (status : Nat) : Bool := 200 ≤ status && status < 300

/-- The value a failed (non-2xx) dispatch rejects with. -/
inductive RejectVal where
| thrown : JsVal → RejectVal
| typeErr : RejectVal

/-- Rejection value for a non-2xx response (lines 158 to 159):
`const errorData = await response.json().catch(() => some empty object);
throw errorData.error || "HTTP Error " + status`.  A body whose JSON is
null makes the property access itself throw a TypeError. -/
def errorRejection (status : Nat) (bodyText : String) : RejectVal :=
  let errorData := (parseJson bodyText).getD (vObj [])
  match errorData with
  | vNull => .typeErr
  | vUndefined => .typeErr
  | _ =>
    let e := propGet errorData "error"
    if truthy e then .thrown e
    else .thrown (vStr ("HTTP Error " ++ toString status))

/-- Result normalization for a 2xx response (lines 162 to 177): 204 yields
null before the body is read; an empty body yields null; otherwise JSON
parse, falling back to the raw text.  Total: never throws. -/
def handleSuccess (status : Nat) (bodyText : String) : JsVal :=
  if status == 204 then vNull
  else if bodyText == "" then vNull
  else
    match parseJson bodyText with
    | some v => v
    | none => vStr bodyText

/-- One evaluation of the 401 debounce (lines 149 to 157): given Date.now()
and the process-wide _lastAuthErrorTime (0 when unset), emit the
"abv-unauthorized" event only when more than 2000 ms elapsed, updating the
timestamp exactly when emitting. -/
def auth401Step (now lastAuthErrorTime : Int) : Option String × Int :=
  if now - lastAuthErrorTime > 2000 then (some "abv-unauthorized", now)
  else (none, lastAuthErrorTime)

mutual

/-- The ":name" placeholder names of a URL template, in order: each ':'
starts a name that extends to the next '/' (or the end). -/
def placeholderNames : List Char → List String
| [] => []
| c :: rest => if c == ':' then placeholderName rest [] else placeholderNames rest

/-- Accumulate the characters of one placeholder name (in reverse) until a
'/' or the end of the template, then continue scanning. -/
def placeholderName : List Char → List Char → List String
| [], acc => [(⟨acc.reverse⟩ : String)]
| c :: rest, acc =>
  if c == '/' then (⟨acc.reverse⟩ : String) :: placeholderNames rest
  else placeholderName rest (c :: acc)

end

/-- Number of ':' characters in a template. -/
def countColon : List Char → Nat
| [] => 0
| c :: rest => (if c == ':' then 1 else 0) + countColon rest

/-- The part of a template before its first ':'. -/
def preColon (l : List Char) : List Char := l.takeWhile (fun c => !(c == ':'))

/-- The part of a template after its first ':'. -/
def postColon (l : List Char) : List Char :=
  (l.dropWhile (fun c => !(c == ':'))).drop 1

/-- Does l contain the character c? -/
def hasChar (l : List Char) (c : Char) : Bool := l.any (fun x => x == c)

/-- Structural conditions on a URL template under which the substitution
loop is fully analysed: at most two placeholders; with two, the text
between them contains a '/' and the second placeholder's name does not
also match at the first placeholder.  Every template of COMMAND_MAPPING
satisfies this. -/
def routeOk (t : List Char) : Bool :=
  let n := countColon t
  if n == 0 then true
  else if n == 1 then true
  else if n == 2 then
    let r := postColon t
    let y := preColon r
    let w := postColon r
    hasChar y '/' &&
      !(isPre (w.takeWhile (fun d => !(d == '/'))) (y ++ ':' :: w))
  else false

/-- A tiny mutable-object store: references to field lists.  Used to state
the frame property of path substitution (the code mutates only the
body-use copy, never the caller's args object). -/
def storeGet : List (Nat × List (String × JsVal)) → Nat → Option (List (String × JsVal))
| [], _ => none
| (r, obj) :: rest, q => if r == q then some obj else storeGet rest q

/-- Bind a reference to an object (allocation or overwrite). -/
def storeSet (st : List (Nat × List (String × JsVal))) (r : Nat)
    (obj : List (String × JsVal)) : List (Nat × List (String × JsVal)) :=
  (r, obj) :: st

/-- In-place `delete obj[k]` on the object bound to reference r. -/
def storeDel : List (Nat × List (String × JsVal)) → Nat → String →
    List (Nat × List (String × JsVal))
| [], _, _ => []
| (r0, obj) :: rest, r, k =>
  (if r0 == r then (r0, obj.filter (fun f => !(f.1 == k))) else (r0, obj)) :: storeDel rest r k

/-- A reference unused by the store. -/
def freshRef (st : List (Nat × List (String × JsVal))) : Nat :=
  (st.map Prod.fst).foldr max 0 + 1

/-- The path-substitution loop (lines 103 to 114) with the mutation made
explicit: iterate the snapshot of Object.keys(args); read args[key] from
the caller's object aRef; replace the placeholder in the URL; delete the
key from the body-use copy bRef. -/
def substHeapLoop : List String → List (Nat × List (String × JsVal)) → Nat → Nat →
    List Char → List (Nat × List (String × JsVal)) × List Char
| [], st, _, _, u => (st, u)
| k :: ks, st, aRef, bRef, u =>
  if hasSub u (':' :: k.toList) then
    let v := (getField ((storeGet st aRef).getD []) k).getD vUndefined
    let u' := replaceFirst u (':' :: k.toList) (encodeListURI (jsToString v).toList)
    substHeapLoop ks (storeDel st bRef k) aRef bRef u'
  else substHeapLoop ks st aRef bRef u

/-- Lines 99 to 114 of the dispatcher: allocate the body-use shallow copy
(`let bodyArgs = args ? spread-copy of args : undefined`) at a fresh
reference and run the substitution loop.  Returns the final store, the
body-copy reference and the substituted URL. -/
def runPathSubst (st : List (Nat × List (String × JsVal))) (aRef : Nat)
    (tmpl : List Char) : List (Nat × List (String × JsVal)) × Nat × List Char :=
  let fields := (storeGet st aRef).getD []
  let bRef := freshRef st
  let r := substHeapLoop (fields.map Prod.fst) (storeSet st bRef fields) aRef bRef tmpl
  (r.1, bRef, r.2)

theorem isPre_iff_append : ∀ (p l : List Char), isPre p l = true ↔ ∃ t, l = p ++ t := by
  intro p
  induction p with
  | nil => intro l; simp [isPre]
  | cons a as ih =>
    intro l
    cases l with
    | nil => simp [isPre]
    | cons b bs =>
      simp only [isPre, Bool.and_eq_true, beq_iff_eq, ih bs, List.cons_append]
      constructor
      · rintro ⟨rfl, t, rfl⟩; exact ⟨t, rfl⟩
      · rintro ⟨t, h⟩
        cases h
        exact ⟨rfl, t, rfl⟩

theorem isPre_append_self (p t : List Char) : isPre p (p ++ t) = true :=
  (isPre_iff_append p (p ++ t)).2 ⟨t, rfl⟩

theorem isPre_length_le {p l : List Char} (h : isPre p l = true) : p.length ≤ l.length := by
  rcases (isPre_iff_append p l).1 h with ⟨t, rfl⟩
  simp

theorem isPre_extend {p a : List Char} (b : List Char) (h : isPre p a = true) :
    isPre p (a ++ b) = true := by
  rcases (isPre_iff_append p a).1 h with ⟨t, rfl⟩
  rw [List.append_assoc]
  exact isPre_append_self p (t ++ b)

theorem isPre_stop {p n z : List Char} {c : Char} (hc : c ∉ p)
    (h : isPre p (n ++ c :: z) = true) : isPre p n = true := by
  induction n generalizing p with
  | nil =>
    cases p with
    | nil => rfl
    | cons a as =>
      simp only [List.nil_append, isPre, Bool.and_eq_true, beq_iff_eq] at h
      exact absurd (List.mem_cons.2 (Or.inl h.1.symm)) hc
  | cons b bs ih =>
    cases p with
    | nil => rfl
    | cons a as =>
      simp only [List.cons_append, isPre, Bool.and_eq_true, beq_iff_eq] at h ⊢
      refine ⟨h.1, ih (fun hm => hc (List.mem_cons_of_mem a hm)) h.2⟩

theorem isPre_colon_cases : ∀ (p n z : List Char), isPre p (n ++ ':' :: z) = true →
    ':' ∉ n → ((':' ∉ p) ∧ isPre p n = true) ∨
      (∃ k, p = n ++ ':' :: k ∧ isPre k z = true) := by
  intro p n
  induction n generalizing p with
  | nil =>
    intro z h _
    cases p with
    | nil => exact Or.inl ⟨by simp, rfl⟩
    | cons a as =>
      simp only [List.nil_append, isPre, Bool.and_eq_true, beq_iff_eq] at h
      exact Or.inr ⟨as, by simp [h.1], h.2⟩
  | cons b bs ih =>
    intro z h hn
    cases p with
    | nil => exact Or.inl ⟨by simp, rfl⟩
    | cons a as =>
      simp only [List.cons_append, isPre, Bool.and_eq_true, beq_iff_eq] at h
      rcases ih as z h.2 (fun hm => hn (List.mem_cons_of_mem b hm)) with hL | ⟨k, hk, hkz⟩
      · refine Or.inl ⟨?_, ?_⟩
        · intro hm
          rcases List.mem_cons.1 hm with rfl | hm2
          · exact hn (h.1 ▸ List.mem_cons_self b bs)
          · exact hL.1 hm2
        · simp [isPre, h.1, hL.2]
      · exact Or.inr ⟨k, by simp [h.1, hk], hkz⟩

theorem hasSub_iff : ∀ (l pat : List Char), hasSub l pat = true ↔ ∃ a b, l = a ++ pat ++ b := by
  intro l pat
  induction l with
  | nil =>
    simp only [hasSub]
    constructor
    · intro h
      rcases (isPre_iff_append pat []).1 h with ⟨t, ht⟩
      rcases List.append_eq_nil.1 ht.symm with ⟨rfl, rfl⟩
      exact ⟨[], [], rfl⟩
    · rintro ⟨a, b, h⟩
      rcases List.append_eq_nil.1 h.symm with ⟨h2, rfl⟩
      rcases List.append_eq_nil.1 h2 with ⟨rfl, rfl⟩
      rfl
  | cons c cs ih =>
    simp only [hasSub, Bool.or_eq_true, ih]
    constructor
    · rintro (h | ⟨a, b, rfl⟩)
      · rcases (isPre_iff_append pat (c :: cs)).1 h with ⟨t, ht⟩
        exact ⟨[], t, by simpa using ht⟩
      · exact ⟨c :: a, b, rfl⟩
    · rintro ⟨a, b, h⟩
      cases a with
      | nil =>
        refine Or.inl ((isPre_iff_append pat (c :: cs)).2 ⟨b, ?_⟩)
        simpa using h
      | cons a0 as =>
        simp only [List.cons_append, List.cons.injEq] at h
        exact Or.inr ⟨as, b, h.2⟩

theorem hasSub_of_isPre {l pat : List Char} (h : isPre pat l = true) : hasSub l pat = true := by
  rcases (isPre_iff_append pat l).1 h with ⟨t, rfl⟩
  exact (hasSub_iff (pat ++ t) pat).2 ⟨[], t, rfl⟩

theorem hasSub_append_right {r pat : List Char} (x : List Char) (h : hasSub r pat = true) :
    hasSub (x ++ r) pat = true := by
  rcases (hasSub_iff r pat).1 h with ⟨a, b, rfl⟩
  exact (hasSub_iff _ pat).2 ⟨x ++ a, b, by simp⟩

theorem hasSub_append_left {a pat : List Char} (b : List Char) (h : hasSub a pat = true) :
    hasSub (a ++ b) pat = true := by
  rcases (hasSub_iff a pat).1 h with ⟨x, y, rfl⟩
  exact (hasSub_iff _ pat).2 ⟨x, y ++ b, by simp⟩

theorem hasSub_middle (a pat b : List Char) : hasSub (a ++ pat ++ b) pat = true :=
  (hasSub_iff _ pat).2 ⟨a, b, rfl⟩

theorem colon_isPre_head {k : List Char} {x : Char} {l : List Char}
    (h : isPre (':' :: k) (x :: l) = true) : x = ':' := by
  simp only [isPre, Bool.and_eq_true, beq_iff_eq] at h
  exact h.1.symm

theorem hasSub_colon_skip : ∀ (x : List Char), ':' ∉ x → ∀ (r k : List Char),
    hasSub (x ++ r) (':' :: k) = hasSub r (':' :: k) := by
  intro x
  induction x with
  | nil => intro _ r k; rfl
  | cons a as ih =>
    intro hx r k
    have ha : ¬(a = ':') := fun h => hx (h ▸ List.mem_cons_self a as)
    have hmem : ':' ∉ as := fun hm => hx (List.mem_cons_of_mem a hm)
    simp only [List.cons_append, hasSub, List.append_eq]
    rw [ih hmem r k]
    cases hp : isPre (':' :: k) (a :: (as ++ r)) with
    | true => exact absurd (colon_isPre_head hp) ha
    | false => simp

theorem hasSub_colon_none : ∀ (r : List Char), ':' ∉ r → ∀ (k : List Char),
    hasSub r (':' :: k) = false := by
  intro r hr k
  cases h : hasSub r (':' :: k) with
  | false => rfl
  | true =>
    rcases (hasSub_iff r (':' :: k)).1 h with ⟨a, b, rfl⟩
    exact absurd (by simp : (':' : Char) ∈ a ++ (':' :: k) ++ b) hr

theorem replaceFirst_no_occ : ∀ (l pat e : List Char), hasSub l pat = false →
    replaceFirst l pat e = l := by
  intro l pat e
  induction l with
  | nil =>
    intro h
    simp only [hasSub] at h
    simp [replaceFirst, h]
  | cons c cs ih =>
    intro h
    simp only [hasSub, Bool.or_eq_false_iff] at h
    simp [replaceFirst, h.1, ih h.2]

theorem replaceFirst_colon_skip : ∀ (x : List Char), ':' ∉ x → ∀ (r k e : List Char),
    replaceFirst (x ++ r) (':' :: k) e = x ++ replaceFirst r (':' :: k) e := by
  intro x
  induction x with
  | nil => intro _ r k e; rfl
  | cons a as ih =>
    intro hx r k e
    have ha : ¬(a = ':') := fun h => hx (h ▸ List.mem_cons_self a as)
    have hmem : ':' ∉ as := fun hm => hx (List.mem_cons_of_mem a hm)
    have hp : isPre (':' :: k) (a :: (as ++ r)) = false := by
      cases hq : isPre (':' :: k) (a :: (as ++ r)) with
      | false => rfl
      | true => exact absurd (colon_isPre_head hq) ha
    rw [List.cons_append, replaceFirst]
    simp only [hp, Bool.false_eq_true, if_false]
    rw [ih hmem r k e, List.cons_append]

theorem replaceFirst_at : ∀ (r k e : List Char), isPre k r = true →
    replaceFirst (':' :: r) (':' :: k) e = e ++ r.drop k.length := by
  intro r k e h
  have hp : isPre (':' :: k) (':' :: r) = true := by
    simp [isPre, h]
  rw [replaceFirst]
  simp only [hp, if_true, List.length_cons, List.drop_succ_cons]

theorem replaceFirst_pass : ∀ (r k e : List Char), isPre k r = false →
    replaceFirst (':' :: r) (':' :: k) e = ':' :: replaceFirst r (':' :: k) e := by
  intro r k e h
  have hp : isPre (':' :: k) (':' :: r) = false := by
    simp [isPre, h]
  rw [replaceFirst]
  simp only [hp, Bool.false_eq_true, if_false]

theorem drop_append_of_isPre {p n : List Char} (m : List Char) (h : isPre p n = true) :
    (n ++ m).drop p.length = n.drop p.length ++ m :=
  List.drop_append_of_le_length (isPre_length_le h)

theorem drop_append_add (a b : List Char) (n : Nat) :
    (a ++ b).drop (a.length + n) = b.drop n := by
  induction a with
  | nil => simp
  | cons x xs ih =>
    rw [List.cons_append, List.length_cons,
        show xs.length + 1 + n = (xs.length + n) + 1 from by omega,
        List.drop_succ_cons]
    exact ih

theorem mem_of_drop {x : Char} {l : List Char} {n : Nat} (h : x ∈ l.drop n) : x ∈ l :=
  List.mem_of_mem_drop h

theorem takeWhile_isPre (q : Char → Bool) : ∀ (l : List Char), isPre (l.takeWhile q) l = true := by
  intro l
  induction l with
  | nil => rfl
  | cons c cs ih =>
    rw [List.takeWhile]
    cases hq : q c with
    | false => rfl
    | true => simpa [isPre] using ih

theorem mem_takeWhile {q : Char → Bool} {x : Char} {l : List Char}
    (h : x ∈ l.takeWhile q) : x ∈ l :=
  (List.takeWhile_sublist q).mem h

theorem mem_dropWhile {q : Char → Bool} {x : Char} {l : List Char}
    (h : x ∈ l.dropWhile q) : x ∈ l :=
  (List.dropWhile_sublist q).mem h

theorem mem_percentByte {x : Char} {b : Nat} (h : x ∈ percentByte b) :
    x = '%' ∨ ∃ n, n < 16 ∧ x = hexDigitUC n := by
  simp only [percentByte, List.mem_cons, List.not_mem_nil, or_false] at h
  rcases h with rfl | rfl | rfl
  · exact Or.inl rfl
  · exact Or.inr ⟨b / 16 % 16, Nat.mod_lt _ (by omega), rfl⟩
  · exact Or.inr ⟨b % 16, Nat.mod_lt _ (by omega), rfl⟩

theorem mem_percent_foldr {x : Char} {bs : List Nat}
    (h : x ∈ bs.foldr (fun b acc => percentByte b ++ acc) []) :
    ∃ b ∈ bs, x ∈ percentByte b := by
  induction bs with
  | nil => simp at h
  | cons b rest ih =>
    simp only [List.foldr_cons, List.mem_append] at h
    rcases h with h | h
    · exact ⟨b, List.mem_cons_self b rest, h⟩
    · rcases ih h with ⟨b2, hb2, hx⟩
      exact ⟨b2, List.mem_cons_of_mem b hb2, hx⟩

theorem hexDigitUC_not_colon_slash : ∀ n, n < 16 → hexDigitUC n ≠ ':' ∧ hexDigitUC n ≠ '/' := by
  decide

theorem encodeCharURI_no_colon_slash {x : Char} {c : Char} (h : x ∈ encodeCharURI c) :
    x ≠ ':' ∧ x ≠ '/' := by
  rw [encodeCharURI] at h
  by_cases hu : uriUnreserved c = true
  · simp only [hu, if_true, List.mem_singleton] at h
    subst h
    constructor
    · intro hc; rw [hc] at hu; exact absurd hu (by decide)
    · intro hc; rw [hc] at hu; exact absurd hu (by decide)
  · simp only [hu, if_false] at h
    rcases mem_percent_foldr h with ⟨b, _, hx⟩
    rcases mem_percentByte hx with rfl | ⟨n, hn, rfl⟩
    · exact ⟨by decide, by decide⟩
    · exact hexDigitUC_not_colon_slash n hn

theorem encodeListURI_no_colon : ∀ (l : List Char), ':' ∉ encodeListURI l := by
  intro l
  induction l with
  | nil => simp [encodeListURI]
  | cons c cs ih =>
    rw [encodeListURI]
    intro hm
    rcases List.mem_append.1 hm with h | h
    · exact (encodeCharURI_no_colon_slash h).1 rfl
    · exact ih h

theorem encodeListURI_no_slash : ∀ (l : List Char), '/' ∉ encodeListURI l := by
  intro l
  induction l with
  | nil => simp [encodeListURI]
  | cons c cs ih =>
    rw [encodeListURI]
    intro hm
    rcases List.mem_append.1 hm with h | h
    · exact (encodeCharURI_no_colon_slash h).2 rfl
    · exact ih h

theorem formEncodeChar_no_colon {x : Char} {c : Char} (h : x ∈ formEncodeChar c) : x ≠ ':' := by
  rw [formEncodeChar] at h
  by_cases hs : c == ' '
  · simp only [hs, if_true, List.mem_singleton] at h
    subst h; decide
  · simp only [hs, Bool.false_eq_true, if_false] at h
    by_cases hf : formSafe c = true
    · simp only [hf, if_true, List.mem_singleton] at h
      subst h
      intro hc; rw [hc] at hf; exact absurd hf (by decide)
    · simp only [hf, if_false] at h
      rcases mem_percent_foldr h with ⟨b, _, hx⟩
      rcases mem_percentByte hx with rfl | ⟨n, hn, rfl⟩
      · decide
      · exact (hexDigitUC_not_colon_slash n hn).1

theorem formEncodeList_no_colon : ∀ (l : List Char), ':' ∉ formEncodeList l := by
  intro l
  induction l with
  | nil => simp [formEncodeList]
  | cons c cs ih =>
    rw [formEncodeList]
    intro hm
    rcases List.mem_append.1 hm with h | h
    · exact formEncodeChar_no_colon h rfl
    · exact ih h

theorem substPathSteps_stable : ∀ (l : List (String × JsVal)) (u : List Char), ':' ∉ u →
    substPathSteps l u = (u, []) := by
  intro l
  induction l with
  | nil => intro u _; rfl
  | cons p rest ih =>
    intro u hu
    obtain ⟨k, v⟩ := p
    have hf : hasSub u (':' :: k.toList) = false := hasSub_colon_none u hu _
    simp only [substPathSteps, hf, Bool.false_eq_true, if_false]
    exact ih u hu

theorem substOne : ∀ (l : List (String × JsVal)) (x r : List Char),
    ':' ∉ x → ':' ∉ r → (∃ p ∈ l, isPre p.1.toList r = true) →
    ':' ∉ (substPathSteps l (x ++ ':' :: r)).1 := by
  intro l
  induction l with
  | nil =>
    intro x r _ _ hw
    rcases hw with ⟨p, hp, _⟩
    exact absurd hp (List.not_mem_nil p)
  | cons p0 rest ih =>
    intro x r hx hr hw
    obtain ⟨k, v⟩ := p0
    have hfire : hasSub (x ++ ':' :: r) (':' :: k.toList) = isPre k.toList r := by
      rw [hasSub_colon_skip x hx, hasSub, hasSub_colon_none r hr, Bool.or_false]
      simp [isPre]
    cases hk : isPre k.toList r with
    | true =>
      rw [hk] at hfire
      simp only [substPathSteps, hfire, if_true]
      rw [replaceFirst_colon_skip x hx, replaceFirst_at r k.toList _ hk]
      have hu' : ':' ∉ x ++ (encodeListURI (jsToString v).toList ++ r.drop k.toList.length) := by
        intro hm
        rcases List.mem_append.1 hm with h | h
        · exact hx h
        · rcases List.mem_append.1 h with h2 | h2
          · exact encodeListURI_no_colon _ h2
          · exact hr (mem_of_drop h2)
      rw [substPathSteps_stable rest _ (by simpa using hu')]
      simpa using hu'
    | false =>
      rw [hk] at hfire
      simp only [substPathSteps, hfire, Bool.false_eq_true, if_false]
      refine ih x r hx hr ?_
      rcases hw with ⟨p, hp, hpre⟩
      rcases List.mem_cons.1 hp with rfl | hp2
      · exact absurd hpre (by simpa using hk)
      · exact ⟨p, hp2, hpre⟩

theorem substTwo : ∀ (l : List (String × JsVal)) (x y w : List Char),
    ':' ∉ x → ':' ∉ y → ':' ∉ w →
    (∃ p ∈ l, isPre p.1.toList y = true) →
    (∃ p ∈ l, isPre p.1.toList w = true ∧ isPre p.1.toList (y ++ ':' :: w) = false) →
    ':' ∉ (substPathSteps l (x ++ ':' :: (y ++ ':' :: w))).1 := by
  intro l
  induction l with
  | nil =>
    intro x y w _ _ _ hw1 _
    rcases hw1 with ⟨p, hp, _⟩
    exact absurd hp (List.not_mem_nil p)
  | cons p0 rest ih =>
    intro x y w hx hy hz hw1 hw2
    obtain ⟨k, v⟩ := p0
    have hfire : hasSub (x ++ ':' :: (y ++ ':' :: w)) (':' :: k.toList) =
        (isPre k.toList (y ++ ':' :: w) || isPre k.toList w) := by
      rw [hasSub_colon_skip x hx, hasSub, hasSub_colon_skip y hy, hasSub,
          hasSub_colon_none w hz, Bool.or_false]
      simp [isPre]
    cases h1 : isPre k.toList (y ++ ':' :: w) with
    | true =>
      have hfire2 : hasSub (x ++ ':' :: (y ++ ':' :: w)) (':' :: k.toList) = true := by
        rw [hfire, h1, Bool.true_or]
      simp only [substPathSteps, hfire2, if_true]
      rw [replaceFirst_colon_skip x hx, replaceFirst_at _ k.toList _ h1]
      rcases isPre_colon_cases k.toList y w h1 hy with ⟨hnc, hky⟩ | ⟨bigK, hKeq, hKw⟩
      · rw [drop_append_of_isPre (':' :: w) hky]
        have hshape : x ++ (encodeListURI (jsToString v).toList ++
            (y.drop k.toList.length ++ ':' :: w)) =
            (x ++ encodeListURI (jsToString v).toList ++ y.drop k.toList.length) ++ ':' :: w := by
          simp [List.append_assoc]
        rw [hshape]
        have hX' : ':' ∉ x ++ encodeListURI (jsToString v).toList ++ y.drop k.toList.length := by
          intro hm
          rcases List.mem_append.1 hm with h | h
          · rcases List.mem_append.1 h with h2 | h2
            · exact hx h2
            · exact encodeListURI_no_colon _ h2
          · exact hy (mem_of_drop h)
        refine substOne rest _ w hX' hz ?_
        rcases hw2 with ⟨p, hp, hpw, hpn⟩
        rcases List.mem_cons.1 hp with rfl | hp2
        · exact absurd h1 (by simpa using hpn)
        · exact ⟨p, hp2, hpw⟩
      · have hlen : k.toList.length = y.length + (1 + bigK.length) := by
          rw [hKeq]
          simp [List.length_append]
          omega
        rw [hlen, drop_append_add y (':' :: w) (1 + bigK.length)]
        have hdrop : (':' :: w).drop (1 + bigK.length) = w.drop bigK.length := by
          rw [show 1 + bigK.length = bigK.length + 1 from by omega, List.drop_succ_cons]
        rw [hdrop]
        have hu' : ':' ∉ x ++ (encodeListURI (jsToString v).toList ++ w.drop bigK.length) := by
          intro hm
          rcases List.mem_append.1 hm with h | h
          · exact hx h
          · rcases List.mem_append.1 h with h2 | h2
            · exact encodeListURI_no_colon _ h2
            · exact hz (mem_of_drop h2)
        rw [substPathSteps_stable rest _ hu']
        exact hu'
    | false =>
      cases h2 : isPre k.toList w with
      | true =>
        have hfire2 : hasSub (x ++ ':' :: (y ++ ':' :: w)) (':' :: k.toList) = true := by
          rw [hfire, h1, h2, Bool.false_or]
        simp only [substPathSteps, hfire2, if_true]
        rw [replaceFirst_colon_skip x hx, replaceFirst_pass _ k.toList _ h1,
            replaceFirst_colon_skip y hy, replaceFirst_at _ k.toList _ h2]
        have hR : ':' ∉ y ++ (encodeListURI (jsToString v).toList ++ w.drop k.toList.length) := by
          intro hm
          rcases List.mem_append.1 hm with h | h
          · exact hy h
          · rcases List.mem_append.1 h with h2m | h2m
            · exact encodeListURI_no_colon _ h2m
            · exact hz (mem_of_drop h2m)
        refine substOne rest x _ hx hR ?_
        rcases hw1 with ⟨p, hp, hpy⟩
        rcases List.mem_cons.1 hp with rfl | hp2
        · exact absurd (isPre_extend (':' :: w) hpy) (by simpa using h1)
        · exact ⟨p, hp2, isPre_extend _ hpy⟩
      | false =>
        have hfire2 : hasSub (x ++ ':' :: (y ++ ':' :: w)) (':' :: k.toList) = false := by
          rw [hfire, h1, h2, Bool.or_false]
        simp only [substPathSteps, hfire2, Bool.false_eq_true, if_false]
        refine ih x y w hx hy hz ?_ ?_
        · rcases hw1 with ⟨p, hp, hpy⟩
          rcases List.mem_cons.1 hp with rfl | hp2
          · exact absurd (isPre_extend (':' :: w) hpy) (by simpa using h1)
          · exact ⟨p, hp2, hpy⟩
        · rcases hw2 with ⟨p, hp, hpw, hpn⟩
          rcases List.mem_cons.1 hp with rfl | hp2
          · exact absurd hpw (by simpa using h2)
          · exact ⟨p, hp2, hpw, hpn⟩

theorem countColon_append : ∀ (a b : List Char), countColon (a ++ b) = countColon a + countColon b := by
  intro a b
  induction a with
  | nil => simp [countColon]
  | cons c cs ih =>
    simp only [List.cons_append, countColon, List.append_eq, ih]
    omega

theorem countColon_zero_iff : ∀ (l : List Char), countColon l = 0 ↔ ':' ∉ l := by
  intro l
  induction l with
  | nil => simp [countColon]
  | cons c cs ih =>
    simp only [countColon, List.mem_cons]
    constructor
    · intro h
      rcases Nat.add_eq_zero.1 h with ⟨h1, h2⟩
      rintro (rfl | hm)
      · simp at h1
      · exact (ih.1 h2) hm
    · intro h
      have hc : ¬(c = ':') := fun he => h (Or.inl he.symm)
      have h2 : ':' ∉ cs := fun hm => h (Or.inr hm)
      simp [hc, ih.2 h2]

theorem split_first_colon : ∀ (l : List Char), ':' ∈ l →
    l = preColon l ++ ':' :: postColon l ∧ ':' ∉ preColon l := by
  intro l
  induction l with
  | nil => intro h; exact absurd h (List.not_mem_nil _)
  | cons c cs ih =>
    intro h
    by_cases hc : c = ':'
    · subst hc
      constructor
      · simp [preColon, postColon, List.takeWhile, List.dropWhile]
      · simp [preColon, List.takeWhile]
    · have hm : ':' ∈ cs := by
        rcases List.mem_cons.1 h with he | hm
        · exact absurd he.symm hc
        · exact hm
      rcases ih hm with ⟨h1, h2⟩
      have hcb : (!(c == ':')) = true := by simp [hc]
      constructor
      · simp only [preColon, postColon, List.takeWhile, List.dropWhile, hcb]
        conv_lhs => rw [h1]
        rfl
      · simp only [preColon, List.takeWhile, hcb]
        intro hm2
        rcases List.mem_cons.1 hm2 with he | hm3
        · exact hc he.symm
        · exact h2 hm3

theorem placeholderNames_no_colon : ∀ (l : List Char), ':' ∉ l → placeholderNames l = [] := by
  intro l
  induction l with
  | nil => intro _; rw [placeholderNames]
  | cons c cs ih =>
    intro h
    have hc : ¬(c = ':') := fun he => h (he ▸ List.mem_cons_self c cs)
    rw [placeholderNames]
    simp only [show (c == ':') = false from by simp [hc], Bool.false_eq_true, if_false]
    exact ih (fun hm => h (List.mem_cons_of_mem c hm))

theorem placeholderName_spec : ∀ (r acc : List Char),
    placeholderName r acc =
      (⟨acc.reverse ++ r.takeWhile (fun d => !(d == '/'))⟩ : String) ::
        placeholderNames (r.dropWhile (fun d => !(d == '/'))) := by
  intro r
  induction r with
  | nil =>
    intro acc
    simp [placeholderName, placeholderNames, List.takeWhile, List.dropWhile]
  | cons c rest ih =>
    intro acc
    by_cases hc : c = '/'
    · subst hc
      rw [placeholderName]
      simp [List.takeWhile, List.dropWhile, placeholderNames]
    · have hcb : (c == '/') = false := by simp [hc]
      rw [placeholderName]
      simp only [hcb, Bool.false_eq_true, if_false, List.takeWhile, List.dropWhile,
        Bool.not_false, if_true]
      rw [ih (c :: acc)]
      simp

theorem placeholderNames_split : ∀ (x : List Char), ':' ∉ x → ∀ (r : List Char),
    placeholderNames (x ++ ':' :: r) =
      (⟨r.takeWhile (fun d => !(d == '/'))⟩ : String) ::
        placeholderNames (r.dropWhile (fun d => !(d == '/'))) := by
  intro x
  induction x with
  | nil =>
    intro _ r
    rw [List.nil_append, placeholderNames]
    simp only [show (':' == ':') = true from rfl, if_true]
    rw [placeholderName_spec r []]
    simp
  | cons c cs ih =>
    intro hx r
    have hc : ¬(c = ':') := fun he => hx (he ▸ List.mem_cons_self c cs)
    rw [List.cons_append, placeholderNames]
    simp only [show (c == ':') = false from by simp [hc], Bool.false_eq_true, if_false]
    exact ih (fun hm => hx (List.mem_cons_of_mem c hm)) r

theorem takeWhile_append_stop {q : Char → Bool} : ∀ (a : List Char), (∃ c ∈ a, q c = false) →
    ∀ (b : List Char), (a ++ b).takeWhile q = a.takeWhile q ∧
      (a ++ b).dropWhile q = a.dropWhile q ++ b := by
  intro a
  induction a with
  | nil =>
    rintro ⟨c, hc, _⟩ b
    exact absurd hc (List.not_mem_nil c)
  | cons x xs ih =>
    rintro ⟨c, hc, hq⟩ b
    rw [List.cons_append]
    cases hx : q x with
    | false =>
      simp [List.takeWhile, List.dropWhile, hx]
    | true =>
      have hcx : c ∈ xs := by
        rcases List.mem_cons.1 hc with rfl | hm
        · rw [hx] at hq; exact absurd hq (by simp)
        · exact hm
      rcases ih ⟨c, hcx, hq⟩ b with ⟨h1, h2⟩
      simp [List.takeWhile, List.dropWhile, hx, h1, h2]

theorem hasChar_iff (l : List Char) (c : Char) : hasChar l c = true ↔ c ∈ l := by
  simp only [hasChar, List.any_eq_true, beq_iff_eq]
  constructor
  · rintro ⟨x, hx, rfl⟩; exact hx
  · intro h; exact ⟨c, h, rfl⟩

theorem routeOk_subst_no_colon : ∀ (t : List Char) (args : List (String × JsVal)),
    routeOk t = true →
    (∀ n ∈ placeholderNames t, ∃ v, (n, v) ∈ args) →
    ':' ∉ (substPathSteps args t).1 := by
  intro t args hok hcov
  by_cases h0 : countColon t = 0
  · have hnc : ':' ∉ t := (countColon_zero_iff t).1 h0
    rw [substPathSteps_stable args t hnc]
    exact hnc
  · have hmem : ':' ∈ t := by
      by_contra hnm
      exact h0 ((countColon_zero_iff t).2 hnm)
    obtain ⟨heq, hxnc⟩ := split_first_colon t hmem
    have hcnt : countColon t = countColon (preColon t) + (1 + countColon (postColon t)) := by
      conv_lhs => rw [heq]
      rw [countColon_append, countColon]
      simp
    have hxz : countColon (preColon t) = 0 := (countColon_zero_iff _).2 hxnc
    by_cases h1 : countColon t = 1
    · have hrz : countColon (postColon t) = 0 := by omega
      have hrnc : ':' ∉ postColon t := (countColon_zero_iff _).1 hrz
      have hnames : placeholderNames t =
          [(⟨(postColon t).takeWhile (fun d => !(d == '/'))⟩ : String)] := by
        conv_lhs => rw [heq]
        rw [placeholderNames_split _ hxnc,
            placeholderNames_no_colon _ (fun hm => hrnc (mem_dropWhile hm))]
      obtain ⟨v, hv⟩ := hcov _ (by rw [hnames]; exact List.mem_singleton.2 rfl)
      rw [heq]
      refine substOne args _ _ hxnc hrnc ⟨_, hv, ?_⟩
      show isPre (String.toList ⟨(postColon t).takeWhile (fun d => !(d == '/'))⟩) (postColon t) = true
      exact takeWhile_isPre _ (postColon t)
    · by_cases h2 : countColon t = 2
      · have hcR : countColon (postColon t) = 1 := by omega
        have hmemR : ':' ∈ postColon t := by
          by_contra hnm
          rw [(countColon_zero_iff _).2 hnm] at hcR
          exact absurd hcR (by omega)
        obtain ⟨heqR, hync⟩ := split_first_colon (postColon t) hmemR
        have hcntR : countColon (postColon t) =
            countColon (preColon (postColon t)) + (1 + countColon (postColon (postColon t))) := by
          conv_lhs => rw [heqR]
          rw [countColon_append, countColon]
          simp
        have hwz : countColon (postColon (postColon t)) = 0 := by
          have := (countColon_zero_iff _).2 hync
          omega
        have hwnc : ':' ∉ postColon (postColon t) := (countColon_zero_iff _).1 hwz
        have hokc : hasChar (preColon (postColon t)) '/' = true ∧
            isPre ((postColon (postColon t)).takeWhile (fun d => !(d == '/')))
              (preColon (postColon t) ++ ':' :: postColon (postColon t)) = false := by
          rw [routeOk] at hok
          simp only [h2, show (2 == 0) = false from rfl, show (2 == 1) = false from rfl,
            show (2 == 2) = true from rfl, Bool.false_eq_true, if_false, if_true,
            Bool.and_eq_true, Bool.not_eq_eq_eq_not, Bool.not_true] at hok
          exact hok
        have hq : ∃ c ∈ preColon (postColon t), (fun d => !(d == '/')) c = false := by
          refine ⟨'/', (hasChar_iff _ '/').1 hokc.1, by simp⟩
        obtain ⟨hTW, hDW⟩ := takeWhile_append_stop _ hq (':' :: postColon (postColon t))
        have hnames : placeholderNames t =
            [(⟨(preColon (postColon t)).takeWhile (fun d => !(d == '/'))⟩ : String),
             (⟨(postColon (postColon t)).takeWhile (fun d => !(d == '/'))⟩ : String)] := by
          conv_lhs => rw [heq, heqR]
          rw [placeholderNames_split _ hxnc, hTW, hDW,
              placeholderNames_split _ (fun hm => hync (mem_dropWhile hm)),
              placeholderNames_no_colon _ (fun hm => hwnc (mem_dropWhile hm))]
        obtain ⟨v1, hv1⟩ := hcov _ (by rw [hnames]; exact List.mem_cons_self _ _)
        obtain ⟨v2, hv2⟩ := hcov _
          (by rw [hnames]; exact List.mem_cons_of_mem _ (List.mem_singleton.2 rfl))
        rw [heq, heqR]
        refine substTwo args _ _ _ hxnc hync hwnc ⟨_, hv1, ?_⟩ ⟨_, hv2, ?_, ?_⟩
        · show isPre (String.toList ⟨(preColon (postColon t)).takeWhile (fun d => !(d == '/'))⟩)
              (preColon (postColon t)) = true
          exact takeWhile_isPre _ _
        · show isPre (String.toList ⟨(postColon (postColon t)).takeWhile (fun d => !(d == '/'))⟩)
              (postColon (postColon t)) = true
          exact takeWhile_isPre _ _
        · show isPre (String.toList ⟨(postColon (postColon t)).takeWhile (fun d => !(d == '/'))⟩)
              (preColon (postColon t) ++ ':' :: postColon (postColon t)) = false
          exact hokc.2
      · exfalso
        rw [routeOk] at hok
        have e0 : (countColon t == 0) = false := by simp [h0]
        have e1 : (countColon t == 1) = false := by simp [h1]
        have e2 : (countColon t == 2) = false := by simp [h2]
        rw [e0, e1, e2] at hok
        simp at hok

theorem findRoute_mem : ∀ (l : List (String × RouteEntry)) (cmd : String) (m : RouteEntry),
    findRoute l cmd = some m → (cmd, m) ∈ l := by
  intro l
  induction l with
  | nil => intro cmd m h; cases h
  | cons p rest ih =>
    intro cmd m h
    obtain ⟨name, e⟩ := p
    rw [findRoute] at h
    by_cases hn : name == cmd
    · rw [if_pos hn] at h
      cases h
      have : name = cmd := by simpa using hn
      subst this
      exact List.mem_cons_self _ _
    · rw [if_neg hn] at h
      exact List.mem_cons_of_mem _ (ih cmd m h)

set_option maxRecDepth 4096 in
theorem commandMapping_routeOk :
    COMMAND_MAPPING.all (fun e => routeOk e.2.url.toList) = true := by decide

theorem joinAmp_no_colon : ∀ (l : List String), (∀ s ∈ l, ':' ∉ s.toList) →
    ':' ∉ (joinAmp l).toList := by
  intro l
  induction l with
  | nil => intro _; simp [joinAmp, String.toList]
  | cons x xs ih =>
    intro h
    cases xs with
    | nil => exact h x (List.mem_singleton.2 rfl)
    | cons y ys =>
      rw [joinAmp]
      intro hm
      rw [show (x ++ "&" ++ joinAmp (y :: ys)).toList =
            x.toList ++ "&".toList ++ (joinAmp (y :: ys)).toList from by
          simp [String.toList, String.data_append]] at hm
      rcases List.mem_append.1 hm with h1 | h1
      · rcases List.mem_append.1 h1 with h2 | h2
        · exact h x (List.mem_cons_self _ _) h2
        · simp [String.toList] at h2
      · exact ih (fun s hs => h s (List.mem_cons_of_mem _ hs)) h1

theorem queryString_no_colon (ps : List (String × String)) :
    ':' ∉ (queryString ps).toList := by
  refine joinAmp_no_colon _ ?_
  intro s hs
  rcases List.mem_map.1 hs with ⟨p, _, rfl⟩
  intro hm
  rw [show (formEncode p.1 ++ "=" ++ formEncode p.2).toList =
        (formEncode p.1).toList ++ "=".toList ++ (formEncode p.2).toList from by
      simp [String.toList, String.data_append]] at hm
  rcases List.mem_append.1 hm with h1 | h1
  · rcases List.mem_append.1 h1 with h2 | h2
    · exact formEncodeList_no_colon _ (by simpa [formEncode, String.toList] using h2)
    · simp [String.toList] at h2
  · exact formEncodeList_no_colon _ (by simpa [formEncode, String.toList] using h1)

theorem url_with_query_no_colon (u : List Char) (hu : ':' ∉ u) (ps : List (String × String)) :
    ':' ∉ ((⟨u⟩ : String) ++
      (if queryString ps == "" then "" else "?" ++ queryString ps)).toList := by
  intro hm
  rw [show ((⟨u⟩ : String) ++
        (if queryString ps == "" then "" else "?" ++ queryString ps)).toList =
      u ++ (if queryString ps == "" then "" else "?" ++ queryString ps).toList from by
    cases h : (queryString ps == "") <;> simp [String.toList, String.data_append, h]] at hm
  rcases List.mem_append.1 hm with h1 | h1
  · exact hu h1
  · by_cases hq : queryString ps == ""
    · rw [if_pos hq] at h1
      simp [String.toList] at h1
    · rw [if_neg hq] at h1
      rw [show ("?" ++ queryString ps).toList = '?' :: (queryString ps).toList from by
        simp [String.toList, String.data_append]] at h1
      rcases List.mem_cons.1 h1 with he | h2
      · cases he
      · exact queryString_no_colon ps h2

/-- C4: for every command present in the route table, dispatching it in
browser mode with an argument bag supplying a value for every ":name"
placeholder of its URL template produces an HTTP request whose method
equals the table entry's verb and whose final URL contains no unresolved
":name" placeholder — no ':' at all, since URL-encoding (of both path
segments and query components) never emits a ':'. -/
theorem c4_table_dispatch_resolved :
    ∀ (cmd : String) (m : RouteEntry) (args : List (String × JsVal)) (apiKey : Option String),
    findRoute COMMAND_MAPPING cmd = some m →
    (∀ n ∈ placeholderNames m.url.toList, ∃ v, (n, v) ∈ args) →
    ∃ r, buildRequest cmd (some args) apiKey = Except.ok r ∧
      r.method = m.method ∧ ':' ∉ r.url.toList := by
  intro cmd m args apiKey hfound hcov
  have hok : routeOk m.url.toList = true := by
    have hmem := findRoute_mem _ _ _ hfound
    simpa using List.all_eq_true.1 commandMapping_routeOk _ hmem
  have hsub : ':' ∉ (substPathSteps args m.url.toList).1 :=
    routeOk_subst_no_colon _ args hok hcov
  obtain ⟨murl, mmeth⟩ := m
  cases mmeth with
  | GET =>
    refine ⟨_, by rw [buildRequest, hfound], rfl, ?_⟩
    exact url_with_query_no_colon _ hsub _
  | DELETE =>
    refine ⟨_, by rw [buildRequest, hfound], rfl, ?_⟩
    exact url_with_query_no_colon _ hsub _
  | POST =>
    refine ⟨_, by rw [buildRequest, hfound], rfl, ?_⟩
    simpa [String.toList] using hsub
  | PATCH =>
    refine ⟨_, by rw [buildRequest, hfound], rfl, ?_⟩
    simpa [String.toList] using hsub

/-- Witness for C4 at the two-placeholder command "restore_device_version". -/
theorem c4_witness :
    findRoute COMMAND_MAPPING "restore_device_version" =
      some ⟨"/api/accounts/:accountId/device-versions/:versionId/restore", HttpMethod.POST⟩ ∧
    (∃ r, buildRequest "restore_device_version"
        (some [("accountId", vStr "abc"), ("versionId", vStr "v7")]) none = Except.ok r ∧
      r.method = HttpMethod.POST ∧ ':' ∉ r.url.toList) := by
  refine ⟨by decide, c4_table_dispatch_resolved _
    ⟨"/api/accounts/:accountId/device-versions/:versionId/restore", HttpMethod.POST⟩ _ none
    (by decide) ?_⟩
  intro n hn
  have hev : placeholderNames
      ("/api/accounts/:accountId/device-versions/:versionId/restore" : String).toList =
      ["accountId", "versionId"] := by decide
  rw [hev] at hn
  rcases List.mem_cons.1 hn with rfl | hn2
  · exact ⟨vStr "abc", List.mem_cons_self _ _⟩
  · rcases List.mem_cons.1 hn2 with rfl | hn3
    · exact ⟨vStr "v7", List.mem_cons_of_mem _ (List.mem_cons_self _ _)⟩
    · exact absurd hn3 (List.not_mem_nil n)

theorem substOneKeep : ∀ (l : List (String × JsVal)) (x r : List Char),
    ':' ∉ x → ':' ∉ r →
    ∃ tail, (substPathSteps l (x ++ ':' :: r)).1 = x ++ tail := by
  intro l
  induction l with
  | nil => intro x r _ _; exact ⟨':' :: r, rfl⟩
  | cons p0 rest ih =>
    intro x r hx hr
    obtain ⟨k, v⟩ := p0
    have hfire : hasSub (x ++ ':' :: r) (':' :: k.toList) = isPre k.toList r := by
      rw [hasSub_colon_skip x hx, hasSub, hasSub_colon_none r hr, Bool.or_false]
      simp [isPre]
    cases hk : isPre k.toList r with
    | true =>
      rw [hk] at hfire
      simp only [substPathSteps, hfire, if_true]
      rw [replaceFirst_colon_skip x hx, replaceFirst_at r k.toList _ hk]
      have hu' : ':' ∉ x ++ (encodeListURI (jsToString v).toList ++ r.drop k.toList.length) := by
        intro hm
        rcases List.mem_append.1 hm with h | h
        · exact hx h
        · rcases List.mem_append.1 h with h2 | h2
          · exact encodeListURI_no_colon _ h2
          · exact hr (mem_of_drop h2)
      rw [substPathSteps_stable rest _ hu']
      exact ⟨_, rfl⟩
    | false =>
      rw [hk] at hfire
      simp only [substPathSteps, hfire, Bool.false_eq_true, if_false]
      exact ih x r hx hr

theorem substOneKeepSlash : ∀ (l : List (String × JsVal)) (x n m : List Char),
    ':' ∉ x → ':' ∉ n → ':' ∉ m →
    (∀ key ∈ l.map Prod.fst, '/' ∉ key.toList) →
    ∃ pre, (substPathSteps l (x ++ ':' :: (n ++ '/' :: m))).1 = pre ++ '/' :: m := by
  intro l
  induction l with
  | nil => intro x n m _ _ _ _; exact ⟨x ++ ':' :: n, by simp [substPathSteps]⟩
  | cons p0 rest ih =>
    intro x n m hx hn hm hkeys
    obtain ⟨k, v⟩ := p0
    have hnm : ':' ∉ n ++ '/' :: m := by
      intro hmm
      rcases List.mem_append.1 hmm with h | h
      · exact hn h
      · rcases List.mem_cons.1 h with he | h2
        · cases he
        · exact hm h2
    have hfire : hasSub (x ++ ':' :: (n ++ '/' :: m)) (':' :: k.toList) =
        isPre k.toList (n ++ '/' :: m) := by
      rw [hasSub_colon_skip x hx, hasSub, hasSub_colon_none _ hnm, Bool.or_false]
      simp [isPre]
    cases hk : isPre k.toList (n ++ '/' :: m) with
    | true =>
      rw [hk] at hfire
      simp only [substPathSteps, hfire, if_true]
      rw [replaceFirst_colon_skip x hx, replaceFirst_at _ k.toList _ hk]
      have hks : '/' ∉ k.toList := hkeys k (List.mem_map.2 ⟨(k, v), List.mem_cons_self _ _, rfl⟩)
      have hkn : isPre k.toList n = true := isPre_stop hks hk
      rw [drop_append_of_isPre ('/' :: m) hkn]
      have hu' : ':' ∉ x ++ (encodeListURI (jsToString v).toList ++
          (n.drop k.toList.length ++ '/' :: m)) := by
        intro hmm
        rcases List.mem_append.1 hmm with h | h
        · exact hx h
        · rcases List.mem_append.1 h with h2 | h2
          · exact encodeListURI_no_colon _ h2
          · rcases List.mem_append.1 h2 with h3 | h3
            · exact hn (mem_of_drop h3)
            · rcases List.mem_cons.1 h3 with he | h4
              · cases he
              · exact hm h4
      rw [substPathSteps_stable rest _ hu']
      exact ⟨x ++ encodeListURI (jsToString v).toList ++ n.drop k.toList.length, by simp⟩
    | false =>
      rw [hk] at hfire
      simp only [substPathSteps, hfire, Bool.false_eq_true, if_false]
      exact ih x n m hx hn hm (fun key hkk => hkeys key (List.mem_map.2
        (by rcases List.mem_map.1 hkk with ⟨q, hq, rfl⟩; exact ⟨q, List.mem_cons_of_mem _ hq, rfl⟩)))

theorem substOneSub : ∀ (l : List (String × JsVal)) (x r : List Char),
    ':' ∉ x → ':' ∉ r →
    ∀ p ∈ (substPathSteps l (x ++ ':' :: r)).2,
      hasSub (substPathSteps l (x ++ ':' :: r)).1 (encodeListURI p.2.toList) = true := by
  intro l
  induction l with
  | nil =>
    intro x r _ _ p hp
    simp [substPathSteps] at hp
  | cons p0 rest ih =>
    intro x r hx hr p hp
    obtain ⟨k, v⟩ := p0
    have hfire : hasSub (x ++ ':' :: r) (':' :: k.toList) = isPre k.toList r := by
      rw [hasSub_colon_skip x hx, hasSub, hasSub_colon_none r hr, Bool.or_false]
      simp [isPre]
    cases hk : isPre k.toList r with
    | true =>
      rw [hk] at hfire
      simp only [substPathSteps, hfire, if_true] at hp ⊢
      set e := encodeListURI (jsToString v).toList with he
      have hu' : ':' ∉ x ++ (e ++ r.drop k.toList.length) := by
        intro hm
        rcases List.mem_append.1 hm with h | h
        · exact hx h
        · rcases List.mem_append.1 h with h2 | h2
          · exact encodeListURI_no_colon _ h2
          · exact hr (mem_of_drop h2)
      rw [replaceFirst_colon_skip x hx, replaceFirst_at r k.toList _ hk] at hp ⊢
      rw [substPathSteps_stable rest _ hu'] at hp ⊢
      rcases List.mem_cons.1 hp with rfl | hp2
      · show hasSub (x ++ (e ++ r.drop k.toList.length)) (encodeListURI (jsToString v).toList) = true
        rw [← he, show x ++ (e ++ r.drop k.toList.length) =
          x ++ e ++ r.drop k.toList.length from by simp]
        exact hasSub_middle x e _
      · simp at hp2
    | false =>
      rw [hk] at hfire
      simp only [substPathSteps, hfire, Bool.false_eq_true, if_false] at hp ⊢
      exact ih x r hx hr p hp

theorem substTwoSub : ∀ (l : List (String × JsVal)) (x y w : List Char),
    ':' ∉ x → ':' ∉ y → ':' ∉ w → '/' ∈ y →
    (∀ key ∈ l.map Prod.fst, '/' ∉ key.toList) →
    ∀ p ∈ (substPathSteps l (x ++ ':' :: (y ++ ':' :: w))).2,
      hasSub (substPathSteps l (x ++ ':' :: (y ++ ':' :: w))).1 (encodeListURI p.2.toList) = true := by
  intro l
  induction l with
  | nil =>
    intro x y w _ _ _ _ _ p hp
    simp [substPathSteps] at hp
  | cons p0 rest ih =>
    intro x y w hx hy hz hsy hkeys p hp
    obtain ⟨k, v⟩ := p0
    have hks : '/' ∉ k.toList := hkeys k (List.mem_map.2 ⟨(k, v), List.mem_cons_self _ _, rfl⟩)
    have hkeysr : ∀ key ∈ rest.map Prod.fst, '/' ∉ key.toList := by
      intro key hkk
      rcases List.mem_map.1 hkk with ⟨q, hq, rfl⟩
      exact hkeys q.1 (List.mem_map.2 ⟨q, List.mem_cons_of_mem _ hq, rfl⟩)
    have hfire : hasSub (x ++ ':' :: (y ++ ':' :: w)) (':' :: k.toList) =
        (isPre k.toList (y ++ ':' :: w) || isPre k.toList w) := by
      rw [hasSub_colon_skip x hx, hasSub, hasSub_colon_skip y hy, hasSub,
          hasSub_colon_none w hz, Bool.or_false]
      simp [isPre]
    obtain ⟨n2, p2, hy2⟩ := List.append_of_mem hsy
    cases h1 : isPre k.toList (y ++ ':' :: w) with
    | true =>
      have hfire2 : hasSub (x ++ ':' :: (y ++ ':' :: w)) (':' :: k.toList) = true := by
        rw [hfire, h1, Bool.true_or]
      simp only [substPathSteps, hfire2, if_true] at hp ⊢
      set e := encodeListURI (jsToString v).toList with he
      have hky : isPre k.toList y = true := by
        have h1' : isPre k.toList (n2 ++ '/' :: (p2 ++ ':' :: w)) = true := by
          rw [hy2] at h1
          simpa using h1
        have hkn : isPre k.toList n2 = true := isPre_stop hks h1'
        rw [hy2]
        exact isPre_extend ('/' :: p2) hkn
      rw [replaceFirst_colon_skip x hx, replaceFirst_at _ k.toList _ h1,
          drop_append_of_isPre (':' :: w) hky] at hp ⊢
      rw [show x ++ (e ++ (y.drop k.toList.length ++ ':' :: w)) =
            (x ++ e ++ y.drop k.toList.length) ++ ':' :: w from by simp] at hp ⊢
      have hX' : ':' ∉ x ++ e ++ y.drop k.toList.length := by
        intro hm
        rcases List.mem_append.1 hm with h | h
        · rcases List.mem_append.1 h with h2 | h2
          · exact hx h2
          · exact encodeListURI_no_colon _ (he ▸ h2)
        · exact hy (mem_of_drop h)
      rcases List.mem_cons.1 hp with rfl | hp2
      · obtain ⟨tail, htail⟩ := substOneKeep rest _ w hX' hz
        rw [htail]
        refine hasSub_append_left tail ?_
        show hasSub (x ++ e ++ y.drop k.toList.length) e = true
        exact hasSub_middle x e _
      · exact substOneSub rest _ w hX' hz p hp2
    | false =>
      cases h2 : isPre k.toList w with
      | true =>
        have hfire2 : hasSub (x ++ ':' :: (y ++ ':' :: w)) (':' :: k.toList) = true := by
          rw [hfire, h1, h2, Bool.false_or]
        simp only [substPathSteps, hfire2, if_true] at hp ⊢
        set e := encodeListURI (jsToString v).toList with he
        rw [replaceFirst_colon_skip x hx, replaceFirst_pass _ k.toList _ h1,
            replaceFirst_colon_skip y hy, replaceFirst_at _ k.toList _ h2] at hp ⊢
        have hR : ':' ∉ y ++ (e ++ w.drop k.toList.length) := by
          intro hm
          rcases List.mem_append.1 hm with h | h
          · exact hy h
          · rcases List.mem_append.1 h with h2m | h2m
            · exact encodeListURI_no_colon _ (he ▸ h2m)
            · exact hz (mem_of_drop h2m)
        rcases List.mem_cons.1 hp with rfl | hp2
        · have hn2c : ':' ∉ n2 := fun hm => hy (hy2 ▸ List.mem_append.2 (Or.inl hm))
          have hmc : ':' ∉ p2 ++ (e ++ w.drop k.toList.length) := by
            intro hm
            rcases List.mem_append.1 hm with h | h
            · exact hy (hy2 ▸ List.mem_append.2 (Or.inr (List.mem_cons_of_mem _ h)))
            · rcases List.mem_append.1 h with h2m | h2m
              · exact encodeListURI_no_colon _ (he ▸ h2m)
              · exact hz (mem_of_drop h2m)
          have hshape : x ++ ':' :: (y ++ (e ++ w.drop k.toList.length)) =
              x ++ ':' :: (n2 ++ '/' :: (p2 ++ (e ++ w.drop k.toList.length))) := by
            rw [hy2]
            simp
          rw [hshape] at hp ⊢
          obtain ⟨pre, hpre⟩ := substOneKeepSlash rest x n2 _ hx hn2c hmc hkeysr
          rw [hpre]
          have hin : hasSub (p2 ++ (e ++ w.drop k.toList.length)) e = true := by
            rw [show p2 ++ (e ++ w.drop k.toList.length) =
              p2 ++ e ++ w.drop k.toList.length from by simp]
            exact hasSub_middle p2 e _
          refine hasSub_append_right pre ?_
          show hasSub (['/'] ++ (p2 ++ (e ++ w.drop k.toList.length))) e = true
          exact hasSub_append_right ['/'] hin
        · exact substOneSub rest x _ hx hR p hp2
      | false =>
        have hfire2 : hasSub (x ++ ':' :: (y ++ ':' :: w)) (':' :: k.toList) = false := by
          rw [hfire, h1, h2, Bool.or_false]
        simp only [substPathSteps, hfire2, Bool.false_eq_true, if_false] at hp ⊢
        exact ih x y w hx hy hz hsy hkeysr p hp

theorem routeOk_consumed_sub : ∀ (t : List Char) (args : List (String × JsVal)),
    routeOk t = true →
    (∀ key ∈ args.map Prod.fst, '/' ∉ key.toList) →
    ∀ p ∈ (substPathSteps args t).2,
      hasSub (substPathSteps args t).1 (encodeListURI p.2.toList) = true := by
  intro t args hok hkeys p hp
  by_cases h0 : countColon t = 0
  · have hnc : ':' ∉ t := (countColon_zero_iff t).1 h0
    rw [substPathSteps_stable args t hnc] at hp
    simp at hp
  · have hmem : ':' ∈ t := by
      by_contra hnm
      exact h0 ((countColon_zero_iff t).2 hnm)
    obtain ⟨heq, hxnc⟩ := split_first_colon t hmem
    have hcnt : countColon t = countColon (preColon t) + (1 + countColon (postColon t)) := by
      conv_lhs => rw [heq]
      rw [countColon_append, countColon]
      simp
    have hxz : countColon (preColon t) = 0 := (countColon_zero_iff _).2 hxnc
    by_cases h1 : countColon t = 1
    · have hrnc : ':' ∉ postColon t := (countColon_zero_iff _).1 (by omega)
      rw [heq] at hp ⊢
      exact substOneSub args _ _ hxnc hrnc p hp
    · by_cases h2 : countColon t = 2
      · have hcR : countColon (postColon t) = 1 := by omega
        have hmemR : ':' ∈ postColon t := by
          by_contra hnm
          rw [(countColon_zero_iff _).2 hnm] at hcR
          exact absurd hcR (by omega)
        obtain ⟨heqR, hync⟩ := split_first_colon (postColon t) hmemR
        have hcntR : countColon (postColon t) =
            countColon (preColon (postColon t)) + (1 + countColon (postColon (postColon t))) := by
          conv_lhs => rw [heqR]
          rw [countColon_append, countColon]
          simp
        have hyz : countColon (preColon (postColon t)) = 0 := (countColon_zero_iff _).2 hync
        have hwnc : ':' ∉ postColon (postColon t) := (countColon_zero_iff _).1 (by omega)
        have hokc : hasChar (preColon (postColon t)) '/' = true := by
          rw [routeOk] at hok
          simp only [h2, show (2 == 0) = false from rfl, show (2 == 1) = false from rfl,
            show (2 == 2) = true from rfl, Bool.false_eq_true, if_false, if_true,
            Bool.and_eq_true] at hok
          exact hok.1
        have hsy : '/' ∈ preColon (postColon t) := (hasChar_iff _ '/').1 hokc
        rw [heq, heqR] at hp ⊢
        exact substTwoSub args _ _ _ hxnc hync hwnc hsy hkeys p hp
      · exfalso
        rw [routeOk] at hok
        have e0 : (countColon t == 0) = false := by simp [h0]
        have e1 : (countColon t == 1) = false := by simp [h1]
        have e2 : (countColon t == 2) = false := by simp [h2]
        rw [e0, e1, e2] at hok
        simp at hok

theorem substPathSteps_consumed_from_args : ∀ (l : List (String × JsVal)) (u : List Char),
    ∀ p ∈ (substPathSteps l u).2, ∃ v, (p.1, v) ∈ l ∧ p.2 = jsToString v := by
  intro l
  induction l with
  | nil =>
    intro u p hp
    simp [substPathSteps] at hp
  | cons p0 rest ih =>
    intro u p hp
    obtain ⟨k, v⟩ := p0
    by_cases hf : hasSub u (':' :: k.toList) = true
    · simp only [substPathSteps, hf, if_true] at hp
      rcases List.mem_cons.1 hp with rfl | hp2
      · exact ⟨v, List.mem_cons_self _ _, rfl⟩
      · rcases ih _ p hp2 with ⟨v2, hv2, hs⟩
        exact ⟨v2, List.mem_cons_of_mem _ hv2, hs⟩
    · simp only [substPathSteps, hf, Bool.false_eq_true, if_false] at hp
      rcases ih u p hp with ⟨v2, hv2, hs⟩
      exact ⟨v2, List.mem_cons_of_mem _ hv2, hs⟩

theorem queryPairs_keys_sub (u : List Char) : ∀ (args : List (String × JsVal)),
    ∀ k ∈ (queryPairs args u).map Prod.fst, k ∈ args.map Prod.fst := by
  intro args
  induction args with
  | nil => intro k hk; simp [queryPairs] at hk
  | cons p0 rest ih =>
    intro k hk
    obtain ⟨k0, v0⟩ := p0
    by_cases hs : hasSub u (encodeListURI (jsToString v0).toList) = true
    · rw [queryPairs, if_pos hs] at hk
      exact List.mem_cons_of_mem _ (ih k hk)
    · rw [queryPairs, if_neg hs] at hk
      by_cases hn : isNullish v0 = true
      · rw [if_pos hn] at hk
        exact List.mem_cons_of_mem _ (ih k hk)
      · rw [if_neg hn] at hk
        rcases List.mem_map.1 hk with ⟨q, hq, rfl⟩
        rcases List.mem_cons.1 hq with rfl | hq2
        · exact List.mem_cons_self _ _
        · exact List.mem_cons_of_mem _ (ih _ (List.mem_map.2 ⟨q, hq2, rfl⟩))

theorem queryPairs_skip_key : ∀ (args : List (String × JsVal)) (u : List Char) (k : String)
    (v : JsVal), (k, v) ∈ args → (args.map Prod.fst).Nodup →
    hasSub u (encodeListURI (jsToString v).toList) = true →
    k ∉ (queryPairs args u).map Prod.fst := by
  intro args
  induction args with
  | nil =>
    intro u k v hmem _ _
    exact absurd hmem (List.not_mem_nil _)
  | cons p0 rest ih =>
    intro u k v hmem hnd hsub
    obtain ⟨k0, v0⟩ := p0
    have hnd2 : (rest.map Prod.fst).Nodup := (List.nodup_cons.1 (by simpa using hnd)).2
    have hk0 : k0 ∉ rest.map Prod.fst := (List.nodup_cons.1 (by simpa using hnd)).1
    rcases List.mem_cons.1 hmem with he | hmem2
    · injection he with he1 he2
      subst he1
      subst he2
      rw [queryPairs, if_pos hsub]
      intro hk
      exact hk0 (queryPairs_keys_sub u rest k hk)
    · have hkne : k ≠ k0 := by
        intro he
        subst he
        exact hk0 (List.mem_map.2 ⟨(k, v), hmem2, rfl⟩)
      by_cases hs : hasSub u (encodeListURI (jsToString v0).toList) = true
      · rw [queryPairs, if_pos hs]
        exact ih u k v hmem2 hnd2 hsub
      · rw [queryPairs, if_neg hs]
        by_cases hn : isNullish v0 = true
        · rw [if_pos hn]
          exact ih u k v hmem2 hnd2 hsub
        · rw [if_neg hn]
          intro hk
          rcases List.mem_map.1 hk with ⟨q, hq, hfst⟩
          rcases List.mem_cons.1 hq with rfl | hq2
          · exact hkne hfst.symm
          · exact ih u k v hmem2 hnd2 hsub (List.mem_map.2 ⟨q, hq2, hfst⟩)

theorem bodyCopy_not_mem {k s : String} (args : List (String × JsVal))
    (cs : List (String × String)) (h : (k, s) ∈ cs) :
    k ∉ (bodyCopy args cs).map Prod.fst := by
  intro hk
  rcases List.mem_map.1 hk with ⟨p, hp, hfst⟩
  have := (List.mem_filter.1 hp).2
  rw [Bool.not_eq_eq_eq_not, Bool.not_true, List.any_eq_false] at this
  have h2 := this (k, s) h
  rw [hfst] at h2
  simp at h2

theorem bodyCopy_keys_sub (args : List (String × JsVal)) (cs : List (String × String)) :
    ∀ k ∈ (bodyCopy args cs).map Prod.fst, k ∈ args.map Prod.fst := by
  intro k hk
  rcases List.mem_map.1 hk with ⟨p, hp, hfst⟩
  exact List.mem_map.2 ⟨p, (List.mem_filter.1 hp).1, hfst⟩

theorem getField_none_of_not_mem : ∀ (l : List (String × JsVal)) (key : String),
    key ∉ l.map Prod.fst → getField l key = none := by
  intro l
  induction l with
  | nil => intro key _; rfl
  | cons p rest ih =>
    intro key hk
    obtain ⟨k0, v0⟩ := p
    have hne : ¬(k0 == key) := by
      intro he
      exact hk (List.mem_map.2 ⟨(k0, v0), List.mem_cons_self _ _, by simpa using (eq_of_beq he)⟩)
    rw [getField, if_neg hne]
    exact ih key (fun hm => hk (by
      rcases List.mem_map.1 hm with ⟨q, hq, rfl⟩
      exact List.mem_map.2 ⟨q, List.mem_cons_of_mem _ hq, rfl⟩))

theorem chosenBody_no_request (bc : List (String × JsVal))
    (h : getField bc "request" = none) : chosenBody bc = vObj bc := by
  rw [chosenBody, h]

/-- C1 (amended): for a browser-mode dispatch of a mapped command, consider
a key consumed by ":key" path substitution (recorded by substPathSteps
together with its String() value).  Provided the caller's bag has unique
keys none of which contains the character '/', the consumed key does not
appear among the query parameters appended for GET/DELETE; and the key is
always removed from the body-use copy, so if the bag moreover has no
"request" wrapper key, the JSON body value is exactly the body-use copy
object, in which the consumed key does not appear.  The unamended claim is
refuted by the recorded counterexample: a bag key containing '/' can overwrite
the substituted value in the URL and make the consumed key reappear as a
query parameter; and a "request" wrapper can reintroduce the key into the
body. -/
theorem c1_consumed_key_not_duplicated :
    ∀ (cmd : String) (m : RouteEntry) (args : List (String × JsVal)) (k s : String),
    findRoute COMMAND_MAPPING cmd = some m →
    (args.map Prod.fst).Nodup →
    (∀ key ∈ args.map Prod.fst, '/' ∉ key.toList) →
    (k, s) ∈ (substPathSteps args m.url.toList).2 →
    k ∉ (queryPairs args (substPathSteps args m.url.toList).1).map Prod.fst ∧
    k ∉ (bodyCopy args (substPathSteps args m.url.toList).2).map Prod.fst ∧
    ("request" ∉ args.map Prod.fst →
      chosenBody (bodyCopy args (substPathSteps args m.url.toList).2) =
        vObj (bodyCopy args (substPathSteps args m.url.toList).2)) := by
  intro cmd m args k s hfound hnd hkeys hcons
  have hok : routeOk m.url.toList = true := by
    have hmem := findRoute_mem _ _ _ hfound
    simpa using List.all_eq_true.1 commandMapping_routeOk _ hmem
  refine ⟨?_, bodyCopy_not_mem args _ hcons, ?_⟩
  · obtain ⟨v, hv, hs⟩ := substPathSteps_consumed_from_args args _ (k, s) hcons
    have hsub := routeOk_consumed_sub _ args hok hkeys (k, s) hcons
    simp only at hs
    rw [hs] at hsub
    exact queryPairs_skip_key args _ k v hv hnd hsub
  · intro hreq
    refine chosenBody_no_request _ (getField_none_of_not_mem _ _ ?_)
    intro hm
    exact hreq (bodyCopy_keys_sub args _ _ hm)

/-- C1 counterexample: dispatching delete_device_version (browser mode) with
the bag mapping versionId to "9" followed by the key
"accountId/device-versions/9" mapped to "Z": versionId is consumed by path
substitution (it is substituted into the template and deleted from the
body-use copy), yet the second key's substitution then overwrites the
value "9" in the URL, so the query loop no longer sees it and appends
versionId=9 — the consumed key appears in the final query string,
refuting the claim as stated. -/
theorem c1_claim_counterexample :
    ("versionId", "9") ∈ (substPathSteps
        [("versionId", vStr "9"), ("accountId/device-versions/9", vStr "Z")]
        ("/api/accounts/:accountId/device-versions/:versionId" : String).toList).2 ∧
    "versionId" ∈ (queryPairs
        [("versionId", vStr "9"), ("accountId/device-versions/9", vStr "Z")]
        (substPathSteps
          [("versionId", vStr "9"), ("accountId/device-versions/9", vStr "Z")]
          ("/api/accounts/:accountId/device-versions/:versionId" : String).toList).1).map
      Prod.fst ∧
    buildRequest "delete_device_version"
      (some [("versionId", vStr "9"), ("accountId/device-versions/9", vStr "Z")]) none =
      Except.ok ⟨HttpMethod.DELETE, "/api/accounts/Z?versionId=9", none,
        [("Content-Type", "application/json")]⟩ := by
  refine ⟨?_, ?_, rfl⟩
  · rw [show (substPathSteps
        [("versionId", vStr "9"), ("accountId/device-versions/9", vStr "Z")]
        ("/api/accounts/:accountId/device-versions/:versionId" : String).toList).2 =
      [("versionId", "9"), ("accountId/device-versions/9", "Z")] from by decide]
    exact List.mem_cons_self _ _
  · rw [show (queryPairs
        [("versionId", vStr "9"), ("accountId/device-versions/9", vStr "Z")]
        (substPathSteps
          [("versionId", vStr "9"), ("accountId/device-versions/9", vStr "Z")]
          ("/api/accounts/:accountId/device-versions/:versionId" : String).toList).1).map
        Prod.fst = ["versionId"] from by decide]
    exact List.mem_singleton.2 rfl

/-- Witness for C1 (amended) at delete_device_version with a plain bag:
versionId is consumed and appears in neither the query pairs nor the
body-use copy. -/
theorem c1_witness :
    findRoute COMMAND_MAPPING "delete_device_version" =
      some ⟨"/api/accounts/:accountId/device-versions/:versionId", HttpMethod.DELETE⟩ ∧
    (List.map Prod.fst [("accountId", vStr "abc"), ("versionId", vStr "9")]).Nodup ∧
    ("versionId", "9") ∈ (substPathSteps [("accountId", vStr "abc"), ("versionId", vStr "9")]
      ("/api/accounts/:accountId/device-versions/:versionId" : String).toList).2 ∧
    ("versionId" ∉ (queryPairs [("accountId", vStr "abc"), ("versionId", vStr "9")]
        (substPathSteps [("accountId", vStr "abc"), ("versionId", vStr "9")]
          ("/api/accounts/:accountId/device-versions/:versionId" : String).toList).1).map
        Prod.fst ∧
      "versionId" ∉ (bodyCopy [("accountId", vStr "abc"), ("versionId", vStr "9")]
        (substPathSteps [("accountId", vStr "abc"), ("versionId", vStr "9")]
          ("/api/accounts/:accountId/device-versions/:versionId" : String).toList).2).map
        Prod.fst ∧
      ("request" ∉ List.map Prod.fst [("accountId", vStr "abc"), ("versionId", vStr "9")] →
        chosenBody (bodyCopy [("accountId", vStr "abc"), ("versionId", vStr "9")]
          (substPathSteps [("accountId", vStr "abc"), ("versionId", vStr "9")]
            ("/api/accounts/:accountId/device-versions/:versionId" : String).toList).2) =
        vObj (bodyCopy [("accountId", vStr "abc"), ("versionId", vStr "9")]
          (substPathSteps [("accountId", vStr "abc"), ("versionId", vStr "9")]
            ("/api/accounts/:accountId/device-versions/:versionId" : String).toList).2))) := by
  refine ⟨by decide, by decide, ?_, ?_⟩
  · rw [show (substPathSteps [("accountId", vStr "abc"), ("versionId", vStr "9")]
      ("/api/accounts/:accountId/device-versions/:versionId" : String).toList).2 =
      [("accountId", "abc"), ("versionId", "9")] from by decide]
    exact List.mem_cons_of_mem _ (List.mem_cons_self _ _)
  · refine c1_consumed_key_not_duplicated "delete_device_version"
      ⟨"/api/accounts/:accountId/device-versions/:versionId", HttpMethod.DELETE⟩
      [("accountId", vStr "abc"), ("versionId", vStr "9")] "versionId" "9"
      (by decide) (by decide) ?_ ?_
    · intro key hkey
      rcases List.mem_cons.1 hkey with rfl | hk2
      · decide
      · rcases List.mem_cons.1 hk2 with rfl | hk3
        · decide
        · exact absurd hk3 (List.not_mem_nil _)
    · rw [show (substPathSteps [("accountId", vStr "abc"), ("versionId", vStr "9")]
        ("/api/accounts/:accountId/device-versions/:versionId" : String).toList).2 =
        [("accountId", "abc"), ("versionId", "9")] from by decide]
      exact List.mem_cons_of_mem _ (List.mem_cons_self _ _)

/-- C2: a browser-mode GET or DELETE dispatch never carries a JSON body,
whatever the argument bag's shape (present or absent); when a bag is
present, the final URL is the substituted URL followed by the query string
built from queryPairs — the pairs of the original bag, in bag order,
skipping undefined/null values and values whose URL-encoded String() form
already occurs in the substituted URL; and dispatching fetch_account_quota
with accountId "abc123" and extra "x" produces exactly
GET /api/accounts/abc123/quota?extra=x. -/
theorem c2_get_delete_query :
    (∀ (cmd : String) (m : RouteEntry) (args : Option (List (String × JsVal)))
       (apiKey : Option String) (r : HttpRequest),
      findRoute COMMAND_MAPPING cmd = some m →
      (m.method = HttpMethod.GET ∨ m.method = HttpMethod.DELETE) →
      buildRequest cmd args apiKey = Except.ok r → r.body = none) ∧
    (∀ (cmd : String) (m : RouteEntry) (a : List (String × JsVal)) (apiKey : Option String),
      findRoute COMMAND_MAPPING cmd = some m →
      (m.method = HttpMethod.GET ∨ m.method = HttpMethod.DELETE) →
      buildRequest cmd (some a) apiKey = Except.ok
        ⟨m.method,
         (⟨(substPathSteps a m.url.toList).1⟩ : String) ++
           (if queryString (queryPairs a (substPathSteps a m.url.toList).1) == "" then ""
            else "?" ++ queryString (queryPairs a (substPathSteps a m.url.toList).1)),
         none, requestHeaders apiKey⟩) ∧
    buildRequest "fetch_account_quota"
      (some [("accountId", vStr "abc123"), ("extra", vStr "x")]) none =
      Except.ok ⟨HttpMethod.GET, "/api/accounts/abc123/quota?extra=x", none,
        [("Content-Type", "application/json")]⟩ := by
  refine ⟨?_, ?_, rfl⟩
  · intro cmd m args apiKey r hfound hm hr
    obtain ⟨murl, mmeth⟩ := m
    simp only at hm
    cases args with
    | none =>
      rcases hm with rfl | rfl <;>
        (rw [buildRequest, hfound] at hr; cases hr; rfl)
    | some a =>
      rcases hm with rfl | rfl <;>
        (rw [buildRequest, hfound] at hr; cases hr; rfl)
  · intro cmd m a apiKey hfound hm
    obtain ⟨murl, mmeth⟩ := m
    simp only at hm
    rcases hm with rfl | rfl <;> (rw [buildRequest, hfound]; try rfl)

/-- Witness for C2 at fetch_account_quota with the scenario bag. -/
theorem c2_witness :
    findRoute COMMAND_MAPPING "fetch_account_quota" =
      some ⟨"/api/accounts/:accountId/quota", HttpMethod.GET⟩ ∧
    (∀ r, buildRequest "fetch_account_quota"
        (some [("accountId", vStr "abc123"), ("extra", vStr "x")]) none = Except.ok r →
      r.body = none) := by
  refine ⟨by decide, ?_⟩
  intro r hr
  exact c2_get_delete_query.1 "fetch_account_quota"
    ⟨"/api/accounts/:accountId/quota", HttpMethod.GET⟩
    (some [("accountId", vStr "abc123"), ("extra", vStr "x")]) none r
    (by decide) (Or.inl rfl) hr

/-- C3 (amended): for a browser-mode POST or PATCH dispatch with an
argument bag present, the JSON body serializes chosenBody of the body-use
copy: when the copy contains a "request" key whose value is defined (not
undefined), exactly that value is serialized and all sibling keys are
discarded; when the copy has no "request" key — or has one whose value is
undefined, which JavaScript's `bodyArgs.request !== undefined` test treats
as absent — the whole body-use copy is serialized.  The scenario holds:
switch_account with accountId "abc123" POSTs /api/accounts/switch with
body consisting of exactly that field.  The unamended claim ("contains a
'request' key" without the definedness restriction) is refuted by the
recorded counterexample. -/
theorem c3_post_patch_body :
    (∀ (cmd : String) (m : RouteEntry) (a : List (String × JsVal)) (apiKey : Option String),
      findRoute COMMAND_MAPPING cmd = some m →
      (m.method = HttpMethod.POST ∨ m.method = HttpMethod.PATCH) →
      buildRequest cmd (some a) apiKey = Except.ok
        ⟨m.method, (⟨(substPathSteps a m.url.toList).1⟩ : String),
         stringifyVal (chosenBody (bodyCopy a (substPathSteps a m.url.toList).2)),
         requestHeaders apiKey⟩) ∧
    (∀ (bc : List (String × JsVal)),
      (∀ v, getField bc "request" = some v → v ≠ vUndefined → chosenBody bc = v) ∧
      (getField bc "request" = none → chosenBody bc = vObj bc) ∧
      (getField bc "request" = some vUndefined → chosenBody bc = vObj bc)) ∧
    buildRequest "switch_account" (some [("accountId", vStr "abc123")]) none =
      Except.ok ⟨HttpMethod.POST, "/api/accounts/switch",
        some "\x7b\"accountId\":\"abc123\"\x7d", [("Content-Type", "application/json")]⟩ := by
  refine ⟨?_, ?_, rfl⟩
  · intro cmd m a apiKey hfound hm
    obtain ⟨murl, mmeth⟩ := m
    simp only at hm
    rcases hm with rfl | rfl <;> (rw [buildRequest, hfound]; try rfl)
  · intro bc
    refine ⟨?_, ?_, ?_⟩
    · intro v hv hne
      rw [chosenBody, hv]
      cases v with
      | vUndefined => exact absurd rfl hne
      | vStr s => rfl
      | vNum n => rfl
      | vNumF s => rfl
      | vBool b => rfl
      | vNull => rfl
      | vObj fs => rfl
      | vArr es => rfl
    · intro hv
      rw [chosenBody, hv]
    · intro hv
      rw [chosenBody, hv]

/-- C3 counterexample: the bag contains a "request" key (with value
undefined) next to accountId; the claim as stated would serialize the
"request" value and discard the sibling, but the code's
`bodyArgs.request !== undefined` test fails, so the whole copy is
serialized and the sibling accountId lands in the body. -/
theorem c3_claim_counterexample :
    getField [("request", vUndefined), ("accountId", vStr "abc123")] "request" =
      some vUndefined ∧
    stringifyVal vUndefined = none ∧
    buildRequest "switch_account"
      (some [("request", vUndefined), ("accountId", vStr "abc123")]) none =
      Except.ok ⟨HttpMethod.POST, "/api/accounts/switch",
        some "\x7b\"accountId\":\"abc123\"\x7d", [("Content-Type", "application/json")]⟩ :=
  ⟨rfl, rfl, rfl⟩

/-- Witness for C3 (amended) at switch_account with the scenario bag. -/
theorem c3_witness :
    findRoute COMMAND_MAPPING "switch_account" =
      some ⟨"/api/accounts/switch", HttpMethod.POST⟩ ∧
    buildRequest "switch_account" (some [("accountId", vStr "abc123")]) none =
      Except.ok ⟨HttpMethod.POST,
        (⟨(substPathSteps [("accountId", vStr "abc123")]
            ("/api/accounts/switch" : String).toList).1⟩ : String),
        stringifyVal (chosenBody (bodyCopy [("accountId", vStr "abc123")]
          (substPathSteps [("accountId", vStr "abc123")]
            ("/api/accounts/switch" : String).toList).2)),
        requestHeaders none⟩ := by
  refine ⟨by decide, ?_⟩
  exact c3_post_patch_body.1 "switch_account" ⟨"/api/accounts/switch", HttpMethod.POST⟩
    [("accountId", vStr "abc123")] none (by decide) (Or.inl rfl)

/-- C5: a command absent from the route table is rejected immediately in
browser mode with a thrown configuration error whose message names the
unmapped command, and no HTTP request is built (so no network call is
attempted). -/
theorem c5_unmapped_config_error :
    ∀ (cmd : String) (args : Option (List (String × JsVal))) (apiKey : Option String),
    findRoute COMMAND_MAPPING cmd = none →
    buildRequest cmd args apiKey =
      Except.error ("Command [" ++ cmd ++ "] not supported in Web mode.") ∧
    ∀ r, buildRequest cmd args apiKey ≠ Except.ok r := by
  intro cmd args apiKey hnone
  constructor
  · rw [buildRequest, hnone]
  · intro r h
    rw [buildRequest, hnone] at h
    cases h

/-- Witness for C5 at a command with no table entry. -/
theorem c5_witness :
    findRoute COMMAND_MAPPING "rotate_device_fingerprint" = none ∧
    (buildRequest "rotate_device_fingerprint" none none =
      Except.error ("Command [" ++ "rotate_device_fingerprint" ++ "] not supported in Web mode.") ∧
     ∀ r, buildRequest "rotate_device_fingerprint" none none ≠ Except.ok r) :=
  ⟨by decide, c5_unmapped_config_error "rotate_device_fingerprint" none none (by decide)⟩

/-- C7: result normalization of a 2xx response never throws (handleSuccess
is a total function): a 204 status yields null before the body is even
read, an empty body yields null, a non-empty body that parses as JSON
yields the parsed value, and a non-empty body that fails JSON parsing
yields the raw text unchanged. -/
theorem c7_success_normalization :
    ∀ (status : Nat) (text : String),
    (status = 204 → handleSuccess status text = vNull) ∧
    (status ≠ 204 → text = "" → handleSuccess status text = vNull) ∧
    (∀ v, status ≠ 204 → text ≠ "" → parseJson text = some v → handleSuccess status text = v) ∧
    (status ≠ 204 → text ≠ "" → parseJson text = none → handleSuccess status text = vStr text) := by
  intro status text
  refine ⟨?_, ?_, ?_, ?_⟩
  · intro h
    subst h
    rw [handleSuccess]
    simp
  · intro h he
    subst he
    rw [handleSuccess]
    simp [h]
  · intro v h he hp
    rw [handleSuccess]
    simp only [show (status == 204) = false from by simpa using h, Bool.false_eq_true, if_false,
      show (text == "") = false from by simpa using he, hp]
  · intro h he hp
    rw [handleSuccess]
    simp only [show (status == 204) = false from by simpa using h, Bool.false_eq_true, if_false,
      show (text == "") = false from by simpa using he, hp]

/-- Witness for C7: a 200 response whose body is not JSON yields the raw
text. -/
theorem c7_witness :
    (200 ≠ 204) ∧ ("plain text" ≠ ("" : String)) ∧ parseJson "plain text" = none ∧
    handleSuccess 200 "plain text" = vStr "plain text" := by
  have hp : parseJson "plain text" = none := by
    rw [show parseJson "plain text" = none from rfl]
  exact ⟨by decide, by decide, hp,
    (c7_success_normalization 200 "plain text").2.2.2 (by decide) (by decide) hp⟩

/-- C6 (amended): a browser-mode dispatch receiving a non-2xx response
rejects with the parsed payload's "error" field when that field is present
with a truthy value; with a synthesized string containing the HTTP status
code when the field is absent or falsy (JavaScript's
`errorData.error || ...`) — an unparseable body being treated as an empty
payload; and with a TypeError when the body parses to JSON null (property
access on null throws).  In particular a 403 with body
consisting of an "error" field "forbidden" rejects with "forbidden".
The unamended claim (any present "error" field is the rejection value) is
refuted by the recorded counterexample with a falsy "error" field. -/
theorem c6_error_rejection :
    (∀ (status : Nat) (body : String),
      (parseJson body = none →
        errorRejection status body =
          RejectVal.thrown (vStr ("HTTP Error " ++ toString status))) ∧
      (∀ d, parseJson body = some d → d ≠ vNull → d ≠ vUndefined →
        (truthy (propGet d "error") = true →
          errorRejection status body = RejectVal.thrown (propGet d "error")) ∧
        (truthy (propGet d "error") = false →
          errorRejection status body =
            RejectVal.thrown (vStr ("HTTP Error " ++ toString status)))) ∧
      (parseJson body = some vNull → errorRejection status body = RejectVal.typeErr)) ∧
    errorRejection 403 "\x7b\"error\":\"forbidden\"\x7d" = RejectVal.thrown (vStr "forbidden") := by
  refine ⟨?_, rfl⟩
  intro status body
  refine ⟨?_, ?_, ?_⟩
  · intro hp
    rw [errorRejection, hp]
    have hg : propGet (vObj []) "error" = vUndefined := rfl
    simp [hg, truthy]
  · intro d hp hnn hnu
    rw [errorRejection, hp]
    constructor
    · intro ht
      cases d with
      | vNull => exact absurd rfl hnn
      | vUndefined => exact absurd rfl hnu
      | vStr s => simp [ht]
      | vNum n => simp [ht]
      | vNumF s => simp [ht]
      | vBool b => simp [ht]
      | vObj fs => simp [ht]
      | vArr es => simp [ht]
    · intro ht
      cases d with
      | vNull => exact absurd rfl hnn
      | vUndefined => exact absurd rfl hnu
      | vStr s => simp [ht]
      | vNum n => simp [ht]
      | vNumF s => simp [ht]
      | vBool b => simp [ht]
      | vObj fs => simp [ht]
      | vArr es => simp [ht]
  · intro hp
    rw [errorRejection, hp]
    rfl

/-- C6 counterexample: a 403 response whose body has the "error" field
present but empty ("" is falsy) rejects with the synthesized
"HTTP Error 403", not with the present field's value, refuting the claim
as stated. -/
theorem c6_claim_counterexample :
    parseJson "\x7b\"error\":\"\"\x7d" = some (vObj [("error", vStr "")]) ∧
    errorRejection 403 "\x7b\"error\":\"\"\x7d" =
      RejectVal.thrown (vStr ("HTTP Error " ++ toString 403)) ∧
    errorRejection 403 "\x7b\"error\":\"\"\x7d" ≠ RejectVal.thrown (vStr "") := by
  refine ⟨rfl, rfl, ?_⟩
  rw [show errorRejection 403 "\x7b\"error\":\"\"\x7d" =
    RejectVal.thrown (vStr ("HTTP Error " ++ toString 403)) from rfl]
  intro h
  rw [RejectVal.thrown.injEq, vStr.injEq] at h
  exact absurd h (by decide)

/-- Witness for C6 at the 403/"forbidden" scenario. -/
theorem c6_witness :
    parseJson "\x7b\"error\":\"forbidden\"\x7d" = some (vObj [("error", vStr "forbidden")]) ∧
    truthy (propGet (vObj [("error", vStr "forbidden")]) "error") = true ∧
    errorRejection 403 "\x7b\"error\":\"forbidden\"\x7d" =
      RejectVal.thrown (propGet (vObj [("error", vStr "forbidden")]) "error") := by
  have hp : parseJson "\x7b\"error\":\"forbidden\"\x7d" =
      some (vObj [("error", vStr "forbidden")]) := rfl
  refine ⟨hp, rfl, ?_⟩
  exact (((c6_error_rejection.1 403 "\x7b\"error\":\"forbidden\"\x7d").2.1
    (vObj [("error", vStr "forbidden")]) hp (by intro h; cases h) (by intro h; cases h)).1 rfl)

/-- C8: the 401 debounce.  With the process-wide timestamp starting at 0
(unset) and a first 401 at a realistic clock value t1 > 2000 (Date.now()
is milliseconds since 1970), the "abv-unauthorized" event is emitted on
the first 401; a second 401 at t2 emits again exactly when more than
2000 ms elapsed since the first emission: within 2000 ms it is emitted
exactly once in total, and 2100 ms apart it is emitted twice. -/
theorem c8_debounce_401 :
    ∀ (t1 t2 : Int), 2000 < t1 → t1 ≤ t2 →
    (auth401Step t1 0).1 = some "abv-unauthorized" ∧
    (auth401Step t1 0).2 = t1 ∧
    ((auth401Step t2 (auth401Step t1 0).2).1 ≠ none ↔ 2000 < t2 - t1) ∧
    (t2 - t1 ≤ 2000 → (auth401Step t2 (auth401Step t1 0).2).1 = none) ∧
    (t2 - t1 = 2100 → (auth401Step t2 (auth401Step t1 0).2).1 = some "abv-unauthorized") := by
  intro t1 t2 h1 h12
  have he1 : auth401Step t1 0 = (some "abv-unauthorized", t1) := by
    rw [auth401Step, if_pos (by omega)]
  refine ⟨by rw [he1], by rw [he1], ?_, ?_, ?_⟩
  · rw [he1]
    constructor
    · intro hne
      by_contra hle
      rw [auth401Step, if_neg (by omega)] at hne
      exact hne rfl
    · intro hgt
      rw [auth401Step, if_pos (by omega)]
      simp
  · intro hle
    rw [he1, auth401Step, if_neg (by omega)]
  · intro heq
    rw [he1, auth401Step, if_pos (by omega)]

/-- Witness for C8: first 401 at t = 100000, second 2100 ms later emits
again; one 1500 ms later would not. -/
theorem c8_witness :
    ((2000 : Int) < 100000) ∧ ((100000 : Int) ≤ 102100) ∧
    (auth401Step 100000 0).1 = some "abv-unauthorized" ∧
    ((102100 : Int) - 100000 = 2100 →
      (auth401Step 102100 (auth401Step 100000 0).2).1 = some "abv-unauthorized") := by
  refine ⟨by decide, by decide, ?_, ?_⟩
  · exact (c8_debounce_401 100000 102100 (by decide) (by decide)).1
  · exact (c8_debounce_401 100000 102100 (by decide) (by decide)).2.2.2.2

/-- C9: the session credential is read fresh from session storage on every
browser-mode dispatch — modelled by buildRequest taking the apiKey read on
the current call.  When a token is present, both the bearer Authorization
header and the custom x-api-key header are attached together; when it is
absent, the call still builds a request (no failure) with neither header. -/
theorem c9_session_headers :
    ∀ (cmd : String) (m : RouteEntry) (args : Option (List (String × JsVal))),
    findRoute COMMAND_MAPPING cmd = some m →
    (∀ key, ∃ r, buildRequest cmd args (some key) = Except.ok r ∧
      ("Authorization", "Bearer " ++ key) ∈ r.headers ∧ ("x-api-key", key) ∈ r.headers) ∧
    (∃ r, buildRequest cmd args none = Except.ok r ∧
      "Authorization" ∉ r.headers.map Prod.fst ∧ "x-api-key" ∉ r.headers.map Prod.fst) := by
  have hshape : ∀ (cmd : String) (m : RouteEntry) (args : Option (List (String × JsVal)))
      (apiKey : Option String), findRoute COMMAND_MAPPING cmd = some m →
      ∃ r, buildRequest cmd args apiKey = Except.ok r ∧ r.headers = requestHeaders apiKey := by
    intro cmd m args apiKey hfound
    obtain ⟨murl, mmeth⟩ := m
    cases args with
    | none => cases mmeth <;> exact ⟨_, by rw [buildRequest, hfound], rfl⟩
    | some a => cases mmeth <;> exact ⟨_, by rw [buildRequest, hfound], rfl⟩
  intro cmd m args hfound
  constructor
  · intro key
    obtain ⟨r, hr, hh⟩ := hshape cmd m args (some key) hfound
    refine ⟨r, hr, ?_, ?_⟩
    · rw [hh, requestHeaders]
      exact List.mem_cons_of_mem _ (List.mem_cons_self _ _)
    · rw [hh, requestHeaders]
      exact List.mem_cons_of_mem _ (List.mem_cons_of_mem _ (List.mem_cons_self _ _))
  · obtain ⟨r, hr, hh⟩ := hshape cmd m args none hfound
    refine ⟨r, hr, ?_, ?_⟩
    · rw [hh, requestHeaders]
      simp
    · rw [hh, requestHeaders]
      simp

/-- Witness for C9 at list_accounts with and without a stored token. -/
theorem c9_witness :
    findRoute COMMAND_MAPPING "list_accounts" = some ⟨"/api/accounts", HttpMethod.GET⟩ ∧
    (∃ r, buildRequest "list_accounts" none (some "tok") = Except.ok r ∧
      ("Authorization", "Bearer " ++ "tok") ∈ r.headers ∧ ("x-api-key", "tok") ∈ r.headers) ∧
    (∃ r, buildRequest "list_accounts" none none = Except.ok r ∧
      "Authorization" ∉ r.headers.map Prod.fst ∧ "x-api-key" ∉ r.headers.map Prod.fst) := by
  refine ⟨by decide, ?_, ?_⟩
  · exact (c9_session_headers "list_accounts" ⟨"/api/accounts", HttpMethod.GET⟩ none
      (by decide)).1 "tok"
  · exact (c9_session_headers "list_accounts" ⟨"/api/accounts", HttpMethod.GET⟩ none
      (by decide)).2

theorem storeGet_storeDel_ne : ∀ (st : List (Nat × List (String × JsVal))) (b : Nat)
    (k : String) (r : Nat), r ≠ b → storeGet (storeDel st b k) r = storeGet st r := by
  intro st b k
  induction st with
  | nil => intro r _; rfl
  | cons p rest ih =>
    intro r hne
    obtain ⟨r0, obj⟩ := p
    rw [storeDel]
    by_cases h0 : (r0 == b) = true
    · rw [if_pos h0, storeGet, storeGet]
      have hr : (r0 == r) = false := by
        have hb : r0 = b := eq_of_beq h0
        subst hb
        simp
        exact fun h => hne h.symm
      simp only [hr, Bool.false_eq_true, if_false]
      exact ih r hne
    · rw [if_neg h0, storeGet, storeGet]
      by_cases h1 : (r0 == r) = true
      · simp only [h1, if_true]
      · simp only [h1, Bool.false_eq_true, if_false]
        exact ih r hne

theorem substHeapLoop_frame : ∀ (ks : List String) (st : List (Nat × List (String × JsVal)))
    (aRef bRef : Nat) (u : List Char), aRef ≠ bRef →
    storeGet (substHeapLoop ks st aRef bRef u).1 aRef = storeGet st aRef := by
  intro ks
  induction ks with
  | nil => intro st aRef bRef u _; rfl
  | cons k rest ih =>
    intro st aRef bRef u hne
    rw [substHeapLoop]
    by_cases hf : hasSub u (':' :: k.toList) = true
    · rw [if_pos hf]
      rw [ih _ aRef bRef _ hne]
      exact storeGet_storeDel_ne st bRef k aRef hne
    · rw [if_neg hf]
      exact ih st aRef bRef u hne

theorem storeGet_some_mem : ∀ (st : List (Nat × List (String × JsVal))) (a : Nat)
    (fs : List (String × JsVal)), storeGet st a = some fs → a ∈ st.map Prod.fst := by
  intro st
  induction st with
  | nil => intro a fs h; cases h
  | cons p rest ih =>
    intro a fs h
    obtain ⟨r0, obj⟩ := p
    rw [storeGet] at h
    by_cases h0 : r0 == a
    · exact List.mem_map.2 ⟨(r0, obj), List.mem_cons_self _ _, by simpa using (eq_of_beq h0)⟩
    · rw [if_neg h0] at h
      exact List.mem_cons_of_mem _ (ih a fs h)

theorem mem_le_foldr_max : ∀ (l : List Nat) (a : Nat), a ∈ l → a ≤ l.foldr max 0 := by
  intro l
  induction l with
  | nil => intro a h; exact absurd h (List.not_mem_nil a)
  | cons x xs ih =>
    intro a h
    rw [List.foldr_cons]
    rcases List.mem_cons.1 h with rfl | h2
    · exact Nat.le_max_left _ _
    · exact Nat.le_trans (ih a h2) (Nat.le_max_right _ _)

/-- C10: the caller's argument-bag object is left unchanged by a
browser-mode dispatch: path substitution reads the caller's object but
deletes consumed keys only from the freshly allocated body-use copy, so
after the substitution loop the store still maps the caller's reference to
the original fields. -/
theorem c10_caller_bag_unchanged :
    ∀ (st : List (Nat × List (String × JsVal))) (aRef : Nat) (tmpl : List Char)
      (fields : List (String × JsVal)),
    storeGet st aRef = some fields →
    storeGet (runPathSubst st aRef tmpl).1 aRef = some fields := by
  intro st aRef tmpl fields hget
  have hne : aRef ≠ freshRef st := by
    intro he
    have hmem := storeGet_some_mem st aRef fields hget
    have hle := mem_le_foldr_max (st.map Prod.fst) aRef hmem
    rw [freshRef] at he
    omega
  rw [runPathSubst]
  dsimp only
  rw [substHeapLoop_frame _ _ _ _ _ hne]
  have hb : (freshRef st == aRef) = false := by
    simp
    exact fun h => hne h.symm
  rw [storeSet, storeGet]
  simp only [hb, Bool.false_eq_true, if_false]
  exact hget

/-- Witness for C10: a store holding one caller bag is unchanged at the
caller's reference after dispatching a path-substituting template. -/
theorem c10_witness :
    storeGet [(0, [("accountId", vStr "abc123")])] 0 = some [("accountId", vStr "abc123")] ∧
    storeGet (runPathSubst [(0, [("accountId", vStr "abc123")])] 0
        ("/api/accounts/:accountId" : String).toList).1 0 =
      some [("accountId", vStr "abc123")] := by
  have hget : storeGet [(0, [("accountId", vStr "abc123")])] 0 =
      some [("accountId", vStr "abc123")] := rfl
  exact ⟨hget, c10_caller_bag_unchanged _ 0 _ _ hget⟩
